import Mathlib

/-!
Verification of the AgentProfiler trace-extraction and rendering core
(`app/upset_plot.js` and `app/tool_call_graph.js`) against its specification.

The JavaScript code is shallowly embedded:
* a JS `Map` is an association list (`set` overwrites in place, keeping the
  original insertion position, otherwise appends; `get` finds the first match);
* a JS `Set` of strings is a list with first-seen insertion order (`setAdd`);
* a thrown `TypeError` (field access on `undefined`) is `Except.error ()`;
* `Math.random()` is an explicit stream `rng : Nat → Nat` of draws, the i-th
  call yielding `rng i`; `Math.floor(Math.random()*200) - 100` is
  `(rng i % 200 : Int) - 100` (the final division by 100 only rescales, so
  shapley values are carried in hundredths to stay in `Int`);
* a trace's `outputs` field is `Option (Option (List Output))`:
  `none` = no `outputs` field, `some none` = `outputs` present but no
  `messages` field, `some (some msgs)` = `outputs.messages` is an array.
-/

namespace AgentProfiler

/-- One entry of a `tool_calls` array: `{id, name, type, args}`.
`args` is kept opaque as a string. -/
structure ToolCall where
  id : String
  name : String
  type : String
  args : String
deriving DecidableEq

/-- One element of `tracing.outputs.messages`: either it has a `tool_calls`
array, or a `tool_call_id` (a tool result, with `status` and `content`), or
neither (logged as "Unknown output type" and skipped). -/
inductive Output where
  | toolCallEvent (tool_calls : List ToolCall)
  | toolResultEvent (tool_call_id : String) (status : String) (content : String)
  | unknown
deriving DecidableEq

/-- A trace record handed to the core by the host. -/
structure Trace where
  id : Option Nat
  score : Option Int
  outputs : Option (Option (List Output))
deriving DecidableEq

/-- JS `Map.get`: first entry with the given key. -/
def mapGet [DecidableEq α] (m : List (α × β)) (k : α) : Option β :=
  match m with
  | [] => none
  | (k₁, v₁) :: rest => if k₁ = k then some v₁ else mapGet rest k

/-- JS `Map.set`: overwrite in place if the key exists (keeping its insertion
position), else append at the end. -/
def mapSet [DecidableEq α] (m : List (α × β)) (k : α) (v : β) : List (α × β) :=
  match m with
  | [] => [(k, v)]
  | (k₁, v₁) :: rest => if k₁ = k then (k, v) :: rest else (k₁, v₁) :: mapSet rest k v

/-- JS `Set.add` on a set represented as its insertion-ordered element list. -/
def setAdd [DecidableEq α] (s : List α) (x : α) : List α :=
  if x ∈ s then s else s ++ [x]

/-! ## upset_plot.js : assignIdsToTracings -/

/-- Embeds `assignIdsToTracings`: `tracings.map((tracing, index) => ({...tracing, id: index}))`.
The spread copies every field and then sets `id` to the position. -/
def assignIdsToTracings (tracings : List Trace) : List Trace :=
  tracings.enum.map (fun p => { p.2 with id := some p.1 })

/-! ## upset_plot.js : getTools -/

/-- The per-trace `toolCallInfo` record: request fields plus the optional
response fields patched in by a matching `ToolResultEvent`. -/
structure ToolCallInfo where
  id : String
  name : String
  type : String
  args : String
  status : Option String := none
  content : Option String := none
deriving DecidableEq

/-- The object built for a tool-call request in `getTools` (no response yet). -/
def mkToolCallInfo (c : ToolCall) : ToolCallInfo :=
  ⟨c.id, c.name, c.type, c.args, none, none⟩

/-- One step of the `output.tool_calls.forEach` body in `getTools`: store the
request under its id (overwriting) and add its name to the global tool set.
State is `(toolCalls map, tools set)`. -/
def processToolCall (st : List (String × ToolCallInfo) × List String) (c : ToolCall) :
    List (String × ToolCallInfo) × List String :=
  (mapSet st.1 c.id (mkToolCallInfo c), setAdd st.2 c.name)

/-- One step of the `outputs.forEach` body in `getTools`. -/
def processOutput (st : List (String × ToolCallInfo) × List String) (o : Output) :
    List (String × ToolCallInfo) × List String :=
  match o with
  | .toolCallEvent cs => cs.foldl processToolCall st
  | .toolResultEvent cid stat cont =>
    match mapGet st.1 cid with
    | some info =>
      (mapSet st.1 cid { info with status := some stat, content := some cont }, st.2)
    | none => st
  | .unknown => st

/-- The entry stored in `tracingToolCalls` for one trace. -/
structure TracingEntry where
  toolCalls : List (String × ToolCallInfo)
  score : Option Int
deriving DecidableEq

/-- Return value of `getTools`. -/
structure GetToolsResult where
  tools : List String
  tracingToolCalls : List (Option Nat × TracingEntry)
deriving DecidableEq

/-- The `tracings.forEach` loop of `getTools`. Accessing
`tracing.outputs.messages` throws when `outputs` (or `messages`) is absent,
which aborts the whole call. -/
def getToolsAux (tools : List String) (acc : List (Option Nat × TracingEntry)) :
    List Trace → Except Unit GetToolsResult
  | [] => .ok ⟨tools, acc⟩
  | tr :: rest =>
    match tr.outputs with
    | some (some msgs) =>
      let st := msgs.foldl processOutput ([], tools)
      getToolsAux st.2 (acc ++ [(tr.id, ⟨st.1, tr.score⟩)]) rest
    | _ => .error ()

/-- Embeds `getTools(tracings)` from upset_plot.js. -/
def getTools (tracings : List Trace) : Except Unit GetToolsResult :=
  getToolsAux [] [] tracings

/-! ## upset_plot.js : createGlyphSystem (identical copy in tool_call_graph.js) -/

/-- The fixed palette of 9 glyph shapes. -/
def availableGlyphs : List String :=
  ["circle", "cross", "diamond", "square", "triangle", "star", "wye", "plus", "times"]

/-- The two maps a glyph system consists of. -/
structure GlyphSystem where
  toolToGroup : List (String × String)
  groupToGlyph : List (String × String)
deriving DecidableEq

/-- A taxonomy: a JS object mapping group names to arrays of tool names,
as an insertion-ordered association list with unique keys. -/
abbrev Taxonomy := List (String × List String)

/-- `Object.keys(toolSets).sort()`: the group names, sorted lexicographically
by code units (compared as the underlying character lists). -/
def sortedGroups (toolSets : Taxonomy) : List String :=
  (toolSets.map Prod.fst).insertionSort (fun a b => a.data ≤ b.data)

instance : IsTotal String (fun a b : String => a.data ≤ b.data) :=
  ⟨fun a b => le_total a.data b.data⟩

instance : IsTrans String (fun a b : String => a.data ≤ b.data) :=
  ⟨fun _ _ _ h₁ h₂ => le_trans h₁ h₂⟩

instance : IsAntisymm String (fun a b : String => a.data ≤ b.data) :=
  ⟨fun _ _ h₁ h₂ => String.ext (le_antisymm h₁ h₂)⟩

/-- Embeds `createGlyphSystem(toolSets)`. -/
def createGlyphSystem (toolSets : Taxonomy) : GlyphSystem :=
  let groupNames := sortedGroups toolSets
  let toolToGroup := groupNames.foldl
    (fun m groupName =>
      ((mapGet toolSets groupName).getD []).foldl
        (fun m toolName => mapSet m toolName groupName) m)
    []
  let groupToGlyph := groupNames.enum.foldl
    (fun m p => mapSet m p.2 (availableGlyphs.getD (p.1 % availableGlyphs.length) "circle"))
    []
  ⟨toolToGroup, groupToGlyph⟩

/-- Embeds the returned `getGlyph` closure. -/
def GlyphSystem.getGlyph (gs : GlyphSystem) (toolName : String) : String :=
  match mapGet gs.toolToGroup toolName with
  | some group => (mapGet gs.groupToGlyph group).getD "circle"
  | none => "circle"

/-- Embeds the returned `getGroup` closure. -/
def GlyphSystem.getGroup (gs : GlyphSystem) (toolName : String) : String :=
  (mapGet gs.toolToGroup toolName).getD "unknown"

/-- Embeds the returned `getGroupGlyph` closure. -/
def GlyphSystem.getGroupGlyph (gs : GlyphSystem) (groupName : String) : String :=
  (mapGet gs.groupToGlyph groupName).getD "circle"

/-! ## tool_call_graph.js : extractToolCallOrder -/

/-- The value stored in `toolCallMap` by both graph extractors. -/
structure OrderCall where
  id : String
  name : String
  index : Nat
  args : String
  outputIndex : Nat
deriving DecidableEq

/-- A node of the returned order graph. -/
structure OrderNode where
  id : String
  name : String
  index : Nat
  callIndex : Nat
deriving DecidableEq

/-- A link of the returned order graph. -/
structure OrderLink where
  source : String
  target : String
  weight : Nat
deriving DecidableEq

/-- The `tool_calls.forEach` body of `extractToolCallOrder`: insert only if the
call id is not yet present. State is `(toolCallMap, callIndex)`; the pair
carries `(outputIndex, toolCall)`. -/
def orderCallStep (st : List (String × OrderCall) × Nat) (p : Nat × ToolCall) :
    List (String × OrderCall) × Nat :=
  match mapGet st.1 p.2.id with
  | some _ => st
  | none => (mapSet st.1 p.2.id ⟨p.2.id, p.2.name, st.2, p.2.args, p.1⟩, st.2 + 1)

/-- The `outputs.forEach` body of `extractToolCallOrder`. -/
def orderStep (st : List (String × OrderCall) × Nat) (oi : Nat × Output) :
    List (String × OrderCall) × Nat :=
  match oi.2 with
  | .toolCallEvent cs => cs.foldl (fun s c => orderCallStep s (oi.1, c)) st
  | _ => st

/-- Embeds `extractToolCallOrder(tracing)`. -/
def extractToolCallOrder (tracing : Trace) : List OrderNode × List OrderLink :=
  match tracing.outputs with
  | some (some msgs) =>
    let st := msgs.enum.foldl orderStep ([], 0)
    let orderedCalls := (st.1.map Prod.snd).insertionSort (fun a b => a.index ≤ b.index)
    let nodes := orderedCalls.enum.map (fun p => OrderNode.mk p.2.id p.2.name p.1 p.2.index)
    let links := List.zipWith (fun a b => OrderLink.mk a.id b.id 1) orderedCalls orderedCalls.tail
    (nodes, links)
  | _ => ([], [])

/-! ## tool_call_graph.js : extractToolCallFlow -/

/-- A node of the returned flow graph. -/
structure FlowNode where
  id : String
  name : String
  index : Nat
  count : Nat
deriving DecidableEq

/-- A link of the returned flow graph; `sequence` records the positions in the
call sequence of the first occurrence of this transition. -/
structure FlowLink where
  source : String
  target : String
  weight : Nat
  sequence : List Nat
deriving DecidableEq

/-- The `tool_calls.forEach` body of `extractToolCallFlow`: like the order
extractor but additionally pushes the name onto `callSequence` on first
sighting of a call id. State is `((toolCallMap, callIndex), callSequence)`. -/
def flowCallStep (st : (List (String × OrderCall) × Nat) × List String) (p : Nat × ToolCall) :
    (List (String × OrderCall) × Nat) × List String :=
  match mapGet st.1.1 p.2.id with
  | some _ => st
  | none =>
    ((mapSet st.1.1 p.2.id ⟨p.2.id, p.2.name, st.1.2, p.2.args, p.1⟩, st.1.2 + 1),
     st.2 ++ [p.2.name])

/-- The `outputs.forEach` body of `extractToolCallFlow`. -/
def flowStep (st : (List (String × OrderCall) × Nat) × List String) (oi : Nat × Output) :
    (List (String × OrderCall) × Nat) × List String :=
  match oi.2 with
  | .toolCallEvent cs => cs.foldl (fun s c => flowCallStep s (oi.1, c)) st
  | _ => st

/-- The string key `` `${source}->${target}` `` used for the edge map. -/
def edgeKey (source target : String) : String := source ++ "->" ++ target

/-- The body of the transition loop of `extractToolCallFlow`: bump the weight
of an existing edge with the same key, else insert a fresh edge of weight 1
remembering the pair of positions. The pair `p` is `(i, (source, target))`. -/
def edgeStep (m : List (String × FlowLink)) (p : Nat × String × String) :
    List (String × FlowLink) :=
  let k := edgeKey p.2.1 p.2.2
  match mapGet m k with
  | some e => mapSet m k { e with weight := e.weight + 1 }
  | none => mapSet m k ⟨p.2.1, p.2.2, 1, [p.1, p.1 + 1]⟩

/-- Embeds `extractToolCallFlow(tracing)`; returns `(nodes, links, callSequence)`. -/
def extractToolCallFlow (tracing : Trace) : List FlowNode × List FlowLink × List String :=
  match tracing.outputs with
  | some (some msgs) =>
    let st := msgs.enum.foldl flowStep (([], 0), [])
    let callSequence := st.2
    let uniqueToolNames := callSequence.foldl setAdd []
    let nodes := uniqueToolNames.enum.map
      (fun p => FlowNode.mk p.2 p.2 p.1 ((callSequence.filter (fun n => decide (n = p.2))).length))
    let pairs := (callSequence.zip callSequence.tail).enum
    let links := (pairs.foldl edgeStep []).map Prod.snd
    (nodes, links, callSequence)
  | _ => ([], [], [])

/-! ## upset_plot.js : bar-chart data and renderUpsetPlot -/

/-- One upper-bar datum; `shapleyValue` is carried in hundredths (the source
computes `(Math.floor(Math.random() * 200) - 100) / 100`). -/
structure BarDatum where
  toolName : String
  shapleyValue : Int
deriving DecidableEq

/-- Embeds `ProfileUpperBarChart`: one random value per tool, the i-th tool
consuming the i-th draw of the random stream. -/
def ProfileUpperBarChart (tools : List String) (rng : Nat → Nat) : List BarDatum :=
  tools.enum.map (fun p => ⟨p.2, (((rng p.1 % 200 : Nat) : Int) - 100)⟩)

/-- One lower (score-rail) datum. -/
structure ScoreDatum where
  id : Option Nat
  score : Option Int
deriving DecidableEq

/-- Embeds `ProfileLowerBarChart`: one entry per tracing, in map insertion
order. -/
def ProfileLowerBarChart (tracingToolCalls : List (Option Nat × TracingEntry)) :
    List ScoreDatum :=
  tracingToolCalls.map (fun p => ⟨p.1, p.2.score⟩)

/-- The structural content of a completed render: the scale domains (tool
column order and trace row order), the per-tool glyph assignment, and the two
bar data sets that fix the drawn geometry. -/
structure PlotBody where
  tools : List String
  traceIds : List (Option Nat)
  glyphs : List (String × String)
  upperBars : List BarDatum
  scoreBars : List ScoreDatum
deriving DecidableEq

/-- What is mounted in the container after a render: either the lone
"No data" placeholder text or a full plot. -/
inductive RenderedView where
  | noData
  | plot (body : PlotBody)
deriving DecidableEq

/-- Tool (column) order of a rendered view. -/
def RenderedView.toolOrder : RenderedView → List String
  | .noData => []
  | .plot b => b.tools

/-- Trace (row) order of a rendered view. -/
def RenderedView.traceOrder : RenderedView → List (Option Nat)
  | .noData => []
  | .plot b => b.traceIds

/-- Glyph assignment of a rendered view. -/
def RenderedView.glyphAssign : RenderedView → List (String × String)
  | .noData => []
  | .plot b => b.glyphs

/-- The full plot view produced by a successful non-empty render: scale
domains from the extraction result and the trace list, glyph assignment per
tool, and the two bar data sets. -/
def mkPlotView (data : List Trace) (toolSets : Taxonomy) (rng : Nat → Nat)
    (r : GetToolsResult) : RenderedView :=
  .plot
    { tools := r.tools
      traceIds := (assignIdsToTracings data).map (fun t => t.id)
      glyphs := r.tools.map (fun t => (t, (createGlyphSystem toolSets).getGlyph t))
      upperBars := ProfileUpperBarChart r.tools rng
      scoreBars := ProfileLowerBarChart r.tracingToolCalls }

/-- Embeds `renderUpsetPlot(container, data, toolSets, options)` as a function
from the container's previous content to its content after the call. The
source first runs `assignIdsToTracings`, `getTools`, `createGlyphSystem` and
the two bar-chart builders, then clears the container and appends the svg, and
only then takes the early "No data" exit; a `TypeError` thrown inside
`getTools` therefore propagates before the container is cleared, leaving the
previous content in place. -/
def renderUpsetPlot (prior : List RenderedView) (data : List Trace)
    (toolSets : Taxonomy) (rng : Nat → Nat) : List RenderedView :=
  match getTools (assignIdsToTracings data) with
  | .error _ => prior
  | .ok r =>
    if data.isEmpty then
      [.noData]
    else
      [mkPlotView data toolSets rng r]

/-! ## Specification-side definitions (named after the spec's wording, for
refinement statements; each is compared against the embedded source). -/

/-- The messages array of a trace, empty when absent. -/
def msgsOf (t : Trace) : List Output :=
  match t.outputs with
  | some (some msgs) => msgs
  | _ => []

/-- A trace is well-shaped when `tracing.outputs.messages` is an array. -/
abbrev traceWF (t : Trace) : Prop := t.outputs = some (some (msgsOf t))

/-- The tool-call requests carried by one output event. -/
def outputCalls : Output → List ToolCall
  | .toolCallEvent cs => cs
  | _ => []

/-- All tool-call requests of a message list, in walk order. -/
def allCalls (msgs : List Output) : List ToolCall :=
  msgs.flatMap outputCalls

/-- All tool names over a trace list, walking traces in input order and each
trace's outputs in sequence order. -/
def allTraceNames (traces : List Trace) : List String :=
  traces.flatMap (fun t => (allCalls (msgsOf t)).map (fun c => c.name))

/-- Spec: "each element exactly once, in first-seen order": keep each first
occurrence, dropping all its later duplicates. -/
def firstSeenList [DecidableEq α] : List α → List α
  | [] => []
  | a :: l => a :: firstSeenList (l.filter (fun x => decide (x ≠ a)))
termination_by l => l.length
decreasing_by
  simp only [List.length_cons]
  exact Nat.lt_succ_of_le (List.length_filter_le _ l)

/-- Spec: "first occurrence wins" per call id: keep the first request carrying
each id, dropping later requests that reuse it. -/
def firstCallsById : List ToolCall → List ToolCall
  | [] => []
  | c :: l => c :: firstCallsById (l.filter (fun d => decide (d.id ≠ c.id)))
termination_by l => l.length
decreasing_by
  simp only [List.length_cons]
  exact Nat.lt_succ_of_le (List.length_filter_le _ l)

/-- Spec order-graph nodes: one node per distinct call id in first-seen order,
indexed consecutively from 0, keeping the first occurrence's name. -/
def ordNodesSpec (calls : List ToolCall) : List OrderNode :=
  (firstCallsById calls).enum.map (fun p => OrderNode.mk p.2.id p.2.name p.1 p.1)

/-- Spec order-graph links: the single path along the distinct call ids in
first-seen order, every weight 1. -/
def ordLinksSpec (calls : List ToolCall) : List OrderLink :=
  List.zipWith (fun a b => OrderLink.mk a.id b.id 1)
    (firstCallsById calls) (firstCallsById calls).tail

/-- Spec flow call sequence: one name per first-seen call id, in order. -/
def flowSeqSpec (calls : List ToolCall) : List String :=
  (firstCallsById calls).map (fun c => c.name)

/-- Spec flow nodes: one per distinct name in first-seen order, with the
name's occurrence count in the call sequence. -/
def flowNodesSpec (seq : List String) : List FlowNode :=
  (firstSeenList seq).enum.map
    (fun p => FlowNode.mk p.2 p.2 p.1 ((seq.filter (fun n => decide (n = p.2))).length))

/-- Spec flow links, keyed: one link per first-seen distinct key string
`source->target`, its weight 1 plus the number of later transitions with the
same key, its `sequence` the first occurrence's position pair. -/
def buildLinksKeyed : List (Nat × String × String) → List (String × FlowLink)
  | [] => []
  | p :: rest =>
    (edgeKey p.2.1 p.2.2,
      ⟨p.2.1, p.2.2,
       1 + rest.countP (fun q => decide (edgeKey q.2.1 q.2.2 = edgeKey p.2.1 p.2.2)),
       [p.1, p.1 + 1]⟩)
    :: buildLinksKeyed (rest.filter (fun q => decide (edgeKey q.2.1 q.2.2 ≠ edgeKey p.2.1 p.2.2)))
termination_by l => l.length
decreasing_by
  simp only [List.length_cons]
  exact Nat.lt_succ_of_le (List.length_filter_le _ rest)

/-- Spec flow links over a call sequence. -/
def flowLinksSpec (seq : List String) : List FlowLink :=
  (buildLinksKeyed ((seq.zip seq.tail).enum)).map Prod.snd

/-! ## Proof-side characterization helpers -/

/-- The map insertions performed by `getTools`, with the tool set projected
away. -/
def processOutputMap (m : List (String × ToolCallInfo)) (o : Output) :
    List (String × ToolCallInfo) :=
  match o with
  | .toolCallEvent cs => cs.foldl (fun m c => mapSet m c.id (mkToolCallInfo c)) m
  | .toolResultEvent cid stat cont =>
    match mapGet m cid with
    | some info => mapSet m cid { info with status := some stat, content := some cont }
    | none => m
  | .unknown => m

/-- The per-trace `toolCalls` map built by `getTools` for one message list. -/
def getToolsTraceMap (msgs : List Output) : List (String × ToolCallInfo) :=
  (msgs.foldl processOutput ([], [])).1

/-- All `(outputIndex, toolCall)` pairs of an indexed message list. -/
def allCallsIdx (l : List (Nat × Output)) : List (Nat × ToolCall) :=
  l.flatMap (fun oi => (outputCalls oi.2).map (fun c => (oi.1, c)))

/-- The first-seen `toolCallMap` contents: one entry per distinct call id,
indexed consecutively from `k`, remembering the first occurrence's data. -/
def buildOrder (k : Nat) : List (Nat × ToolCall) → List (String × OrderCall)
  | [] => []
  | p :: rest =>
    (p.2.id, ⟨p.2.id, p.2.name, k, p.2.args, p.1⟩)
    :: buildOrder (k + 1) (rest.filter (fun q => decide (q.2.id ≠ p.2.id)))
termination_by l => l.length
decreasing_by
  simp only [List.length_cons]
  exact Nat.lt_succ_of_le (List.length_filter_le _ rest)

/-- Bump a flow link's weight. -/
def bumpW (e : FlowLink) (n : Nat) : FlowLink := { e with weight := e.weight + n }

/-! ## Concrete inputs used by witnesses and counterexamples -/

/-- A tool-call request literal. -/
def tc (i n : String) : ToolCall := ⟨i, n, "tool_call", "{}"⟩

/-- Scenario-1 style traces: trace A calls search and read, trace B calls
search; trace A also re-uses a call id. -/
def tracesEx : List Trace :=
  [⟨some 0, some 5,
    some (some
      [Output.toolCallEvent [tc "a1" "search", tc "a2" "read"],
       Output.toolResultEvent "a1" "success" "hits",
       Output.toolCallEvent [tc "a1" "search"]])⟩,
   ⟨some 1, none, some (some [Output.toolCallEvent [tc "b1" "search"]])⟩]

/-- Messages that re-use call id "x" with two different names. -/
def msgsDup : List Output :=
  [Output.toolCallEvent [tc "x" "alpha", tc "y" "beta"],
   Output.toolCallEvent [tc "x" "gamma"]]

/-- A trace whose outputs re-use call id "x" with two different names. -/
def traceDup : Trace := ⟨some 0, none, some (some msgsDup)⟩

/-- Messages realizing the call sequence `[A, B, A, B, C]`. -/
def msgsABABC : List Output :=
  [Output.toolCallEvent [tc "1" "A", tc "2" "B"],
   Output.toolCallEvent [tc "3" "A"],
   Output.toolCallEvent [tc "4" "B", tc "5" "C"]]

/-- A trace realizing the call sequence `[A, B, A, B, C]`. -/
def traceABABC : Trace := ⟨some 0, none, some (some msgsABABC)⟩

/-- Messages whose tool names contain the literal substring `->`, so two
distinct consecutive name pairs produce the same edge-map key string. -/
def msgsArrow : List Output :=
  [Output.toolCallEvent [tc "1" "a", tc "2" "b->c", tc "3" "a->b", tc "4" "c"]]

/-- A trace over `msgsArrow`. -/
def traceArrowNames : Trace := ⟨some 0, none, some (some msgsArrow)⟩

/-- A taxonomy listing the group "beta" before "alpha". -/
def tax1 : Taxonomy := [("beta", ["x", "y"]), ("alpha", ["z"])]

/-- The same taxonomy as `tax1` with the keys inserted in the other order. -/
def tax2 : Taxonomy := [("alpha", ["z"]), ("beta", ["x", "y"])]

/-- A trace with no `outputs` field at all. -/
def traceNoOutputs : Trace := ⟨some 0, some 1, none⟩

/-- A trace with an `outputs` object that has no `messages` field. -/
def traceNoMessages : Trace := ⟨some 0, some 1, some none⟩

/-! ## Lemmas: association-list maps and sets -/

theorem mapGet_mapSet_self [DecidableEq α] (m : List (α × β)) (k : α) (v : β) :
    mapGet (mapSet m k v) k = some v := by
  induction m with
  | nil => simp [mapGet, mapSet]
  | cons hd tl ih =>
    obtain ⟨k₁, v₁⟩ := hd
    by_cases h : k₁ = k <;> simp [mapGet, mapSet, h, ih]

theorem mapGet_mapSet_ne [DecidableEq α] (m : List (α × β)) (k k' : α) (v : β)
    (h : k ≠ k') : mapGet (mapSet m k v) k' = mapGet m k' := by
  induction m with
  | nil => simp [mapGet, mapSet, h]
  | cons hd tl ih =>
    obtain ⟨k₁, v₁⟩ := hd
    by_cases h₁ : k₁ = k
    · subst h₁; simp [mapGet, mapSet, h]
    · simp only [mapSet, if_neg h₁]
      by_cases h₂ : k₁ = k' <;> simp [mapGet, h₂, ih]

theorem mapSet_of_get_none [DecidableEq α] (m : List (α × β)) (k : α) (v : β)
    (h : mapGet m k = none) : mapSet m k v = m ++ [(k, v)] := by
  induction m with
  | nil => simp [mapSet]
  | cons hd tl ih =>
    obtain ⟨k₁, v₁⟩ := hd
    by_cases h₁ : k₁ = k
    · simp [mapGet, h₁] at h
    · simp only [mapGet, if_neg h₁] at h
      simp [mapSet, h₁, ih h]

theorem mapGet_append_of_some [DecidableEq α] (m m₂ : List (α × β)) (x : α) (w : β)
    (h : mapGet m x = some w) : mapGet (m ++ m₂) x = some w := by
  induction m with
  | nil => simp [mapGet] at h
  | cons hd tl ih =>
    obtain ⟨k₁, v₁⟩ := hd
    by_cases h₁ : k₁ = x <;> simp_all [mapGet]

theorem mapGet_append_of_none [DecidableEq α] (m m₂ : List (α × β)) (x : α)
    (h : mapGet m x = none) : mapGet (m ++ m₂) x = mapGet m₂ x := by
  induction m with
  | nil => simp [mapGet]
  | cons hd tl ih =>
    obtain ⟨k₁, v₁⟩ := hd
    by_cases h₁ : k₁ = x <;> simp_all [mapGet]

theorem mapGet_eq_none_iff [DecidableEq α] (m : List (α × β)) (k : α) :
    mapGet m k = none ↔ k ∉ m.map Prod.fst := by
  induction m with
  | nil => simp [mapGet]
  | cons hd tl ih =>
    obtain ⟨k₁, v₁⟩ := hd
    by_cases h₁ : k₁ = k
    · subst h₁; simp [mapGet]
    · have h₂ : ¬ k = k₁ := fun h => h₁ h.symm
      simp only [mapGet, if_neg h₁, List.map_cons, List.mem_cons, ih]
      tauto

theorem mapGet_mem [DecidableEq α] (m : List (α × β)) (k : α) (v : β)
    (h : mapGet m k = some v) : (k, v) ∈ m := by
  induction m with
  | nil => simp [mapGet] at h
  | cons hd tl ih =>
    obtain ⟨k₁, v₁⟩ := hd
    by_cases h₁ : k₁ = k
    · subst h₁; simp [mapGet] at h; simp [h]
    · simp only [mapGet, if_neg h₁] at h
      exact List.mem_cons_of_mem _ (ih h)

theorem mapSet_keys_of_get_some [DecidableEq α] (m : List (α × β)) (k : α) (v e : β)
    (h : mapGet m k = some e) : (mapSet m k v).map Prod.fst = m.map Prod.fst := by
  induction m with
  | nil => simp [mapGet] at h
  | cons hd tl ih =>
    obtain ⟨k₁, v₁⟩ := hd
    by_cases h₁ : k₁ = k
    · subst h₁; simp [mapSet]
    · simp only [mapGet, if_neg h₁] at h
      simp [mapSet, h₁, ih h]

theorem foldl_congr_fn {γ δ : Type _} {f g : γ → δ → γ} (h : ∀ s a, f s a = g s a) :
    ∀ (l : List δ) (i : γ), l.foldl f i = l.foldl g i := by
  intro l
  induction l with
  | nil => intro i; rfl
  | cons a l ih => intro i; rw [List.foldl_cons, List.foldl_cons, h, ih]

/-! ## Lemmas: first-seen dedup -/

theorem mem_firstSeenList [DecidableEq α] (x : α) :
    ∀ l : List α, x ∈ firstSeenList l ↔ x ∈ l := by
  intro l
  induction l using firstSeenList.induct with
  | case1 => simp [firstSeenList]
  | case2 a l ih =>
    rw [firstSeenList]
    by_cases hx : x = a
    · simp [hx]
    · simp only [List.mem_cons, hx, false_or, ih, List.mem_filter, decide_eq_true_eq]
      simp [hx]

theorem nodup_firstSeenList [DecidableEq α] :
    ∀ l : List α, (firstSeenList l).Nodup := by
  intro l
  induction l using firstSeenList.induct with
  | case1 => simp [firstSeenList]
  | case2 a l ih =>
    rw [firstSeenList]
    refine List.Nodup.cons ?_ ih
    intro hmem
    rw [mem_firstSeenList, List.mem_filter] at hmem
    simp at hmem

theorem toFinset_firstSeenList [DecidableEq α] (l : List α) :
    (firstSeenList l).toFinset = l.toFinset := by
  ext x; simp [List.mem_toFinset, mem_firstSeenList]

theorem firstSeenList_length_eq_card [DecidableEq α] (l : List α) :
    (firstSeenList l).length = l.toFinset.card := by
  rw [← toFinset_firstSeenList, List.toFinset_card_of_nodup (nodup_firstSeenList l)]

theorem count_firstSeenList_eq_one [DecidableEq α] (l : List α) (x : α) (hx : x ∈ l) :
    (firstSeenList l).count x = 1 :=
  List.count_eq_one_of_mem (nodup_firstSeenList l) ((mem_firstSeenList x l).mpr hx)

theorem foldl_setAdd_eq [DecidableEq α] :
    ∀ (l : List α) (acc : List α),
      l.foldl setAdd acc = acc ++ firstSeenList (l.filter (fun x => decide (x ∉ acc))) := by
  intro l
  induction l with
  | nil => intro acc; simp [firstSeenList]
  | cons a l ih =>
    intro acc
    rw [List.foldl_cons, ih]
    by_cases ha : a ∈ acc
    · have hset : setAdd acc a = acc := by simp [setAdd, ha]
      have hfil : (a :: l).filter (fun x => decide (x ∉ acc))
          = l.filter (fun x => decide (x ∉ acc)) := by
        simp [List.filter_cons, ha]
      rw [hset, hfil]
    · have hset : setAdd acc a = acc ++ [a] := by simp [setAdd, ha]
      rw [hset, List.append_assoc]
      congr 1
      have hfil : l.filter (fun x => decide (x ∉ acc ++ [a]))
          = (l.filter (fun x => decide (x ∉ acc))).filter (fun x => decide (x ≠ a)) := by
        rw [List.filter_filter]
        apply List.filter_congr
        intro x hx
        by_cases hxa : x = a <;> by_cases hxacc : x ∈ acc <;> simp [hxa, hxacc]
      have hcons : (a :: l).filter (fun x => decide (x ∉ acc)) =
          a :: l.filter (fun x => decide (x ∉ acc)) := by
        simp [List.filter_cons, ha]
      rw [hfil, hcons, firstSeenList]
      simp

theorem foldl_setAdd_nil_eq [DecidableEq α] (l : List α) :
    l.foldl setAdd [] = firstSeenList l := by
  rw [foldl_setAdd_eq]
  simp

/-! ## Lemmas: getTools -/

theorem allCalls_cons (o : Output) (msgs : List Output) :
    allCalls (o :: msgs) = outputCalls o ++ allCalls msgs := by
  simp [allCalls]

theorem allCalls_append (l₁ l₂ : List Output) :
    allCalls (l₁ ++ l₂) = allCalls l₁ ++ allCalls l₂ := by
  simp [allCalls]

theorem foldl_processToolCall_split :
    ∀ (cs : List ToolCall) (m : List (String × ToolCallInfo)) (tl : List String),
      cs.foldl processToolCall (m, tl)
        = (cs.foldl (fun m c => mapSet m c.id (mkToolCallInfo c)) m,
           (cs.map (fun c => c.name)).foldl setAdd tl) := by
  intro cs
  induction cs with
  | nil => intro m tl; rfl
  | cons c cs ih => intro m tl; simp [processToolCall, ih]

theorem foldl_processOutput_split :
    ∀ (msgs : List Output) (m : List (String × ToolCallInfo)) (tl : List String),
      msgs.foldl processOutput (m, tl)
        = (msgs.foldl processOutputMap m,
           ((allCalls msgs).map (fun c => c.name)).foldl setAdd tl) := by
  intro msgs
  induction msgs with
  | nil => intro m tl; simp [allCalls]
  | cons o msgs ih =>
    intro m tl
    rw [List.foldl_cons, List.foldl_cons, allCalls_cons, List.map_append, List.foldl_append]
    match o with
    | .toolCallEvent cs =>
      rw [show processOutput (m, tl) (.toolCallEvent cs) = cs.foldl processToolCall (m, tl) from rfl,
        foldl_processToolCall_split, ih]
      rfl
    | .toolResultEvent cid stat cont =>
      have houts : outputCalls (.toolResultEvent cid stat cont) = [] := rfl
      rw [houts]
      cases hget : mapGet m cid with
      | some info =>
        rw [show processOutput (m, tl) (.toolResultEvent cid stat cont)
            = (mapSet m cid { info with status := some stat, content := some cont }, tl) from by
          simp [processOutput, hget]]
        rw [ih]
        simp [processOutputMap, hget]
      | none =>
        rw [show processOutput (m, tl) (.toolResultEvent cid stat cont) = (m, tl) from by
          simp [processOutput, hget]]
        rw [ih]
        simp [processOutputMap, hget]
    | .unknown =>
      rw [show processOutput (m, tl) .unknown = (m, tl) from rfl, ih]
      rfl

theorem getToolsTraceMap_eq (msgs : List Output) :
    getToolsTraceMap msgs = msgs.foldl processOutputMap [] := by
  rw [getToolsTraceMap, foldl_processOutput_split]

theorem getToolsAux_ok :
    ∀ (traces : List Trace) (tools : List String) (acc : List (Option Nat × TracingEntry)),
      (∀ t ∈ traces, traceWF t) →
      getToolsAux tools acc traces
        = .ok ⟨(allTraceNames traces).foldl setAdd tools,
               acc ++ traces.map (fun t => (t.id, ⟨getToolsTraceMap (msgsOf t), t.score⟩))⟩ := by
  intro traces
  induction traces with
  | nil => intro tools acc _; simp [getToolsAux, allTraceNames]
  | cons t rest ih =>
    intro tools acc h
    have hwf : t.outputs = some (some (msgsOf t)) := h t (by simp)
    rw [show getToolsAux tools acc (t :: rest)
        = (match t.outputs with
           | some (some msgs) =>
             let st := msgs.foldl processOutput ([], tools)
             getToolsAux st.2 (acc ++ [(t.id, ⟨st.1, t.score⟩)]) rest
           | _ => .error ()) from rfl,
      hwf]
    simp only
    rw [foldl_processOutput_split]
    rw [ih _ _ (fun t' ht' => h t' (List.mem_cons_of_mem _ ht'))]
    have hnames : allTraceNames (t :: rest)
        = (allCalls (msgsOf t)).map (fun c => c.name) ++ allTraceNames rest := by
      simp [allTraceNames]
    rw [hnames, List.foldl_append, ← getToolsTraceMap_eq]
    simp

/-- C1: for every list of traces whose outputs are present, the `tools` array
produced by `getTools` contains each tool name exactly once, in the order of
each name's first occurrence walking the traces in input order and each
trace's outputs in sequence order (`firstSeenList` of the flattened name
sequence). -/
theorem getTools_tools_firstSeen (traces : List Trace)
    (h : ∀ t ∈ traces, traceWF t) :
    (∃ entries, getTools traces = .ok ⟨firstSeenList (allTraceNames traces), entries⟩)
    ∧ (firstSeenList (allTraceNames traces)).Nodup
    ∧ (∀ x, x ∈ firstSeenList (allTraceNames traces) ↔ x ∈ allTraceNames traces)
    ∧ (∀ x ∈ allTraceNames traces, (firstSeenList (allTraceNames traces)).count x = 1) := by
  refine ⟨⟨traces.map (fun t => (t.id, ⟨getToolsTraceMap (msgsOf t), t.score⟩)), ?_⟩,
    nodup_firstSeenList _, fun x => mem_firstSeenList x _,
    fun x hx => count_firstSeenList_eq_one _ x hx⟩
  rw [getTools, getToolsAux_ok traces [] [] h, foldl_setAdd_nil_eq]
  rfl

/-- Witness for C1 at the scenario-1 traces (search+read, then search, with a
re-used call id): hypotheses hold and the tools array is
`["search", "read"]`. -/
theorem getTools_tools_firstSeen_witness :
    (∀ t ∈ tracesEx, traceWF t)
    ∧ firstSeenList (allTraceNames tracesEx) = ["search", "read"]
    ∧ (∃ entries, getTools tracesEx
        = .ok ⟨firstSeenList (allTraceNames tracesEx), entries⟩) :=
  ⟨by decide, by rw [← foldl_setAdd_nil_eq]; decide,
   (getTools_tools_firstSeen tracesEx (by decide)).1⟩

/-! ## Lemmas: assignIdsToTracings -/

theorem assignIds_aux_map_id :
    ∀ (ts : List Trace) (n : Nat),
      (((ts.enumFrom n).map (fun p => { p.2 with id := some p.1 })).map Trace.id)
        = (List.range' n ts.length).map some := by
  intro ts
  induction ts with
  | nil => intro n; rfl
  | cons t ts ih => intro n; simp [List.enumFrom, List.range', ih]

theorem assignIds_aux_map_outputs :
    ∀ (ts : List Trace) (n : Nat),
      (((ts.enumFrom n).map (fun p => { p.2 with id := some p.1 })).map Trace.outputs)
        = ts.map Trace.outputs := by
  intro ts
  induction ts with
  | nil => intro n; rfl
  | cons t ts ih => intro n; simp [List.enumFrom, ih]

theorem assignIds_map_outputs (ts : List Trace) :
    (assignIdsToTracings ts).map Trace.outputs = ts.map Trace.outputs := by
  rw [assignIdsToTracings, show ts.enum = ts.enumFrom 0 from rfl, assignIds_aux_map_outputs]

theorem assignIds_aux_map_score :
    ∀ (ts : List Trace) (n : Nat),
      (((ts.enumFrom n).map (fun p => { p.2 with id := some p.1 })).map Trace.score)
        = ts.map Trace.score := by
  intro ts
  induction ts with
  | nil => intro n; rfl
  | cons t ts ih => intro n; simp [List.enumFrom, ih]

/-- C6 (amended): `assignIdsToTracings` returns fresh copies of the records in
which `id` is unconditionally set to the insertion index (an already-present
id is replaced, not kept), while every other field (`outputs`, `score`) is
carried over unchanged; the input records themselves are left untouched since
the function builds new objects. -/
theorem assignIdsToTracings_spec (ts : List Trace) :
    (assignIdsToTracings ts).map Trace.id = (List.range ts.length).map some
    ∧ (assignIdsToTracings ts).map Trace.outputs = ts.map Trace.outputs
    ∧ (assignIdsToTracings ts).map Trace.score = ts.map Trace.score
    ∧ (assignIdsToTracings ts).length = ts.length := by
  refine ⟨?_, assignIds_map_outputs ts, ?_, ?_⟩
  · rw [assignIdsToTracings, show ts.enum = ts.enumFrom 0 from rfl,
      assignIds_aux_map_id, List.range_eq_range']
  · rw [assignIdsToTracings, show ts.enum = ts.enumFrom 0 from rfl, assignIds_aux_map_score]
  · simp [assignIdsToTracings]

/-- C6 counterexample: a record that already carries id 42 does not keep it;
`{...tracing, id: index}` overwrites it with the insertion index 0. -/
theorem assignIdsToTracings_overwrites_id :
    ¬ ((assignIdsToTracings [⟨some 42, none, none⟩]).map Trace.id = [some 42]) := by
  decide

/-! ## C8: getTools lacks the missing-outputs guard of the graph extractors -/

/-- C8: at a trace with no `outputs` (or no `outputs.messages`), the two graph
extractors return empty nodes/links as the spec demands, but `getTools`
throws a `TypeError` (modelled as `Except.error`) instead of yielding an
empty tool-call map; a trace with an empty `messages` array works in all
three. -/
theorem getTools_missing_outputs_throws :
    getTools [traceNoOutputs] = .error ()
    ∧ getTools [traceNoMessages] = .error ()
    ∧ extractToolCallOrder traceNoOutputs = ([], [])
    ∧ extractToolCallOrder traceNoMessages = ([], [])
    ∧ extractToolCallFlow traceNoOutputs = ([], [], [])
    ∧ extractToolCallFlow traceNoMessages = ([], [], [])
    ∧ getTools [⟨some 0, some 1, some (some [])⟩]
        = .ok ⟨[], [(some 0, ⟨[], some 1⟩)]⟩ := by
  exact ⟨rfl, rfl, rfl, rfl, rfl, rfl, rfl⟩

/-! ## C9: empty input renders only the "No data" placeholder -/

/-- C9: for an empty trace list, `renderUpsetPlot` leaves exactly the
"No data" placeholder in the container — no plot body (no scale domains, no
bars, no cells) is constructed — and the extraction pass returns the empty
result immediately, having iterated over no traces. -/
theorem renderUpsetPlot_empty (prior : List RenderedView) (ts : Taxonomy)
    (rng : Nat → Nat) :
    renderUpsetPlot prior [] ts rng = [.noData]
    ∧ getTools (assignIdsToTracings []) = .ok ⟨[], []⟩ :=
  ⟨rfl, rfl⟩

/-! ## C5: re-rendering -/

theorem traceWF_of_outputs_eq {t t' : Trace} (h : t'.outputs = t.outputs)
    (hw : traceWF t) : traceWF t' := by
  unfold traceWF msgsOf at *
  rw [h, hw]

theorem assignIds_wf {data : List Trace} (h : ∀ t ∈ data, traceWF t) :
    ∀ t' ∈ assignIdsToTracings data, traceWF t' := by
  intro t' ht'
  have houts : t'.outputs ∈ (assignIdsToTracings data).map Trace.outputs :=
    List.mem_map_of_mem _ ht'
  rw [assignIds_map_outputs data] at houts
  obtain ⟨t, ht, heq⟩ := List.mem_map.mp houts
  exact traceWF_of_outputs_eq heq.symm (h t ht)

/-- C5 (amended): re-rendering the same `(traces, taxonomy)` pair into the
same mount point replaces the previous content with a single fresh view
(no accumulation, and the result does not depend on what was mounted before),
and the tool ordering, trace-row ordering and glyph assignment of the two
renders agree; the upper bar chart, however, is built from fresh
`Math.random()` draws on every call, so its bar geometry may differ between
the two renders. -/
theorem renderUpsetPlot_structural_determinism (prior₁ prior₂ : List RenderedView)
    (data : List Trace) (ts : Taxonomy) (rng₁ rng₂ : Nat → Nat)
    (h : ∀ t ∈ data, traceWF t) :
    ∃ v₁ v₂ : RenderedView,
      renderUpsetPlot prior₁ data ts rng₁ = [v₁]
      ∧ renderUpsetPlot prior₂ data ts rng₂ = [v₂]
      ∧ v₁.toolOrder = v₂.toolOrder
      ∧ v₁.traceOrder = v₂.traceOrder
      ∧ v₁.glyphAssign = v₂.glyphAssign := by
  have hok₀ := getToolsAux_ok (assignIdsToTracings data) [] [] (assignIds_wf h)
  rw [← getTools] at hok₀
  obtain ⟨r, hok⟩ : ∃ r, getTools (assignIdsToTracings data) = .ok r := ⟨_, hok₀⟩
  by_cases hd : data = []
  · subst hd
    exact ⟨.noData, .noData, rfl, rfl, rfl, rfl, rfl⟩
  · have hne : data.isEmpty = false := by
      simpa [List.isEmpty_iff] using hd
    refine ⟨mkPlotView data ts rng₁ r, mkPlotView data ts rng₂ r, ?_, ?_, rfl, rfl, rfl⟩
    · simp only [renderUpsetPlot, hok, hne, Bool.false_eq_true, if_false]
    · simp only [renderUpsetPlot, hok, hne, Bool.false_eq_true, if_false]

/-- Witness for C5 (amended) at the scenario-1 traces with two different
random streams. -/
theorem renderUpsetPlot_structural_determinism_witness :
    (∀ t ∈ tracesEx, traceWF t)
    ∧ (∃ v₁ v₂ : RenderedView,
        renderUpsetPlot [] tracesEx [] (fun _ => 0) = [v₁]
        ∧ renderUpsetPlot [.noData] tracesEx [] (fun _ => 1) = [v₂]
        ∧ v₁.toolOrder = v₂.toolOrder
        ∧ v₁.traceOrder = v₂.traceOrder
        ∧ v₁.glyphAssign = v₂.glyphAssign) :=
  ⟨by decide,
   renderUpsetPlot_structural_determinism [] [.noData] tracesEx [] _ _ (by decide)⟩

/-- C5 counterexample: the claim "calling renderUpsetPlot twice produces a
structurally identical final view" fails at a concrete input — the upper bar
chart uses `Math.random()`, so a second render whose random stream yields 1
instead of 0 draws different bar geometry. -/
theorem renderUpsetPlot_second_render_differs :
    renderUpsetPlot (renderUpsetPlot [] tracesEx [] (fun _ => 0)) tracesEx []
        (fun _ => 1)
      ≠ renderUpsetPlot [] tracesEx [] (fun _ => 0) := by
  decide

/-! ## Lemmas: order-graph extraction -/

theorem allCallsIdx_cons (p : Nat × Output) (l : List (Nat × Output)) :
    allCallsIdx (p :: l) = (outputCalls p.2).map (fun c => (p.1, c)) ++ allCallsIdx l := by
  simp [allCallsIdx]

theorem allCallsIdx_map_snd :
    ∀ l : List (Nat × Output), (allCallsIdx l).map Prod.snd = allCalls (l.map Prod.snd) := by
  intro l
  induction l with
  | nil => rfl
  | cons p l ih =>
    rw [allCallsIdx_cons, List.map_append, List.map_cons, allCalls_cons, ih,
      List.map_map]
    congr 1
    simp

theorem allCallsIdx_enum_map_snd (msgs : List Output) :
    (allCallsIdx msgs.enum).map Prod.snd = allCalls msgs := by
  rw [allCallsIdx_map_snd, List.enum_map_snd]

theorem foldl_orderStep_flat :
    ∀ (l : List (Nat × Output)) (st : List (String × OrderCall) × Nat),
      l.foldl orderStep st = (allCallsIdx l).foldl orderCallStep st := by
  intro l
  induction l with
  | nil => intro st; rfl
  | cons oi l ih =>
    intro st
    obtain ⟨i, o⟩ := oi
    rw [List.foldl_cons, allCallsIdx_cons, List.foldl_append]
    cases o with
    | toolCallEvent cs =>
      rw [show orderStep st (i, Output.toolCallEvent cs)
          = cs.foldl (fun s c => orderCallStep s (i, c)) st from rfl,
        show outputCalls (Output.toolCallEvent cs) = cs from rfl,
        ← List.foldl_map (fun c => (i, c)) orderCallStep, ih]
    | toolResultEvent cid stat cont =>
      rw [show orderStep st (i, Output.toolResultEvent cid stat cont) = st from rfl, ih]
      rfl
    | unknown =>
      rw [show orderStep st (i, Output.unknown) = st from rfl, ih]
      rfl

theorem foldl_orderCallStep_char :
    ∀ (ps : List (Nat × ToolCall)) (m : List (String × OrderCall)) (k : Nat),
      ps.foldl orderCallStep (m, k)
        = (m ++ buildOrder k (ps.filter (fun p => (mapGet m p.2.id).isNone)),
           k + (buildOrder k (ps.filter (fun p => (mapGet m p.2.id).isNone))).length) := by
  intro ps
  induction ps with
  | nil => intro m k; simp [buildOrder]
  | cons p ps ih =>
    intro m k
    rw [List.foldl_cons]
    cases hg : mapGet m p.2.id with
    | some e =>
      rw [show orderCallStep (m, k) p = (m, k) from by simp [orderCallStep, hg]]
      rw [show (p :: ps).filter (fun p => (mapGet m p.2.id).isNone)
          = ps.filter (fun p => (mapGet m p.2.id).isNone) from by
        simp [List.filter_cons, hg]]
      exact ih m k
    | none =>
      have hstep : orderCallStep (m, k) p
          = (m ++ [(p.2.id, ⟨p.2.id, p.2.name, k, p.2.args, p.1⟩)], k + 1) := by
        simp [orderCallStep, hg, mapSet_of_get_none _ _ _ hg]
      rw [hstep, ih]
      have hpred : ∀ q : Nat × ToolCall,
          (mapGet (m ++ [(p.2.id, (⟨p.2.id, p.2.name, k, p.2.args, p.1⟩ : OrderCall))]) q.2.id).isNone
            = ((mapGet m q.2.id).isNone && decide (q.2.id ≠ p.2.id)) := by
        intro q
        cases hq : mapGet m q.2.id with
        | some w => rw [mapGet_append_of_some _ _ _ _ hq]; rfl
        | none =>
          rw [mapGet_append_of_none _ _ _ hq]
          by_cases hqp : p.2.id = q.2.id
          · simp [mapGet, hqp]
          · simp only [mapGet, if_neg hqp]
            simp [Ne.symm hqp]
      have hfil : ps.filter (fun q =>
            (mapGet (m ++ [(p.2.id, (⟨p.2.id, p.2.name, k, p.2.args, p.1⟩ : OrderCall))]) q.2.id).isNone)
          = (ps.filter (fun q => (mapGet m q.2.id).isNone)).filter
              (fun q => decide (q.2.id ≠ p.2.id)) := by
        rw [List.filter_filter]
        apply List.filter_congr
        intro q _
        rw [hpred q, Bool.and_comm]
      have hconsfil : (p :: ps).filter (fun q => (mapGet m q.2.id).isNone)
          = p :: ps.filter (fun q => (mapGet m q.2.id).isNone) := by
        simp [List.filter_cons, hg]
      rw [hfil, hconsfil, buildOrder]
      simp only [Prod.mk.injEq]
      constructor
      · rw [List.append_assoc]
        rfl
      · simp only [List.length_cons]
        omega

theorem buildOrder_index_ge :
    ∀ (k : Nat) (l : List (Nat × ToolCall)) (q : String × OrderCall),
      q ∈ buildOrder k l → k ≤ q.2.index := by
  intro k l
  induction k, l using buildOrder.induct with
  | case1 k => intro q hq; simp [buildOrder] at hq
  | case2 k p rest ih =>
    intro q hq
    rw [buildOrder] at hq
    rcases List.mem_cons.mp hq with h | h
    · subst h; exact Nat.le_refl k
    · exact Nat.le_of_succ_le (ih q h)

theorem buildOrder_sorted :
    ∀ (k : Nat) (l : List (Nat × ToolCall)),
      List.Sorted (fun a b => a.index ≤ b.index) ((buildOrder k l).map Prod.snd) := by
  intro k l
  induction k, l using buildOrder.induct with
  | case1 k => simp [buildOrder]
  | case2 k p rest ih =>
    rw [buildOrder, List.map_cons, List.sorted_cons]
    refine ⟨?_, ih⟩
    intro b hb
    obtain ⟨q, hq, hqb⟩ := List.mem_map.mp hb
    have := buildOrder_index_ge (k + 1) _ q hq
    subst hqb
    simpa using Nat.le_of_succ_le this

theorem buildOrder_idname :
    ∀ (k : Nat) (l : List (Nat × ToolCall)),
      ((buildOrder k l).map Prod.snd).map (fun c => (c.id, c.name))
        = (firstCallsById (l.map Prod.snd)).map (fun c => (c.id, c.name)) := by
  intro k l
  induction k, l using buildOrder.induct with
  | case1 k => simp [buildOrder, firstCallsById]
  | case2 k p rest ih =>
    rw [buildOrder, List.map_cons, List.map_cons, List.map_cons, firstCallsById]
    simp only [List.map_cons]
    congr 1
    rw [ih]
    congr 2
    rw [List.filter_map]
    rfl

theorem buildOrder_names :
    ∀ (k : Nat) (l : List (Nat × ToolCall)),
      ((buildOrder k l).map Prod.snd).map (fun c => c.name)
        = (firstCallsById (l.map Prod.snd)).map (fun c => c.name) := by
  intro k l
  have h := buildOrder_idname k l
  have h₁ := congrArg (List.map Prod.snd) h
  simpa [List.map_map, Function.comp] using h₁

theorem buildOrder_index_eq :
    ∀ (k : Nat) (l : List (Nat × ToolCall)),
      ((buildOrder k l).map Prod.snd).map (fun c => c.index)
        = List.range' k (buildOrder k l).length := by
  intro k l
  induction k, l using buildOrder.induct with
  | case1 k => simp [buildOrder]
  | case2 k p rest ih =>
    rw [buildOrder]
    simp only [List.map_cons, List.length_cons, List.range'_succ, List.cons.injEq]
    exact ⟨trivial, ih⟩

theorem nodes_build :
    ∀ (l₁ : List OrderCall) (l₂ : List ToolCall) (j : Nat),
      l₁.map (fun c => (c.id, c.name)) = l₂.map (fun c => (c.id, c.name)) →
      l₁.map (fun c => c.index) = List.range' j l₁.length →
      (l₁.enumFrom j).map (fun p => OrderNode.mk p.2.id p.2.name p.1 p.2.index)
        = (l₂.enumFrom j).map (fun p => OrderNode.mk p.2.id p.2.name p.1 p.1) := by
  intro l₁
  induction l₁ with
  | nil =>
    intro l₂ j h₁ _
    have : l₂ = [] := by
      cases l₂ with
      | nil => rfl
      | cons d s => simp at h₁
    subst this; rfl
  | cons c t ih =>
    intro l₂ j h₁ h₂
    cases l₂ with
    | nil => simp at h₁
    | cons d s =>
      simp only [List.map_cons, List.cons.injEq, Prod.mk.injEq] at h₁
      simp only [List.map_cons, List.length_cons, List.range'_succ, List.cons.injEq] at h₂
      simp only [List.enumFrom, List.map_cons]
      rw [h₁.1.1, h₁.1.2, h₂.1]
      congr 1
      exact ih s (j + 1) h₁.2 h₂.2

theorem zipWith_proj_eq {α β γ δ : Type _} (f : α → γ) (g : β → γ) (h : γ → γ → δ) :
    ∀ (l₁ : List α) (l₂ : List β), l₁.map f = l₂.map g →
      List.zipWith (fun a b => h (f a) (f b)) l₁ l₁.tail
        = List.zipWith (fun a b => h (g a) (g b)) l₂ l₂.tail := by
  intro l₁
  induction l₁ with
  | nil =>
    intro l₂ hm
    have : l₂ = [] := by
      cases l₂ with
      | nil => rfl
      | cons d s => simp at hm
    subst this; rfl
  | cons a t ih =>
    intro l₂ hm
    cases l₂ with
    | nil => simp at hm
    | cons b s =>
      simp only [List.map_cons, List.cons.injEq] at hm
      cases t with
      | nil =>
        have : s = [] := by
          cases s with
          | nil => rfl
          | cons b₂ s₂ => simp at hm
        subst this; rfl
      | cons a₂ t₂ =>
        cases s with
        | nil => simp at hm
        | cons b₂ s₂ =>
          simp only [List.map_cons, List.cons.injEq] at hm
          simp only [List.tail_cons, List.zipWith_cons_cons]
          rw [hm.1, hm.2.1]
          congr 1
          have := ih (b₂ :: s₂) (by simp [hm.2.1, hm.2.2])
          simpa using this

/-- Full characterization of `extractToolCallOrder`: the nodes are the
first-seen distinct call ids in order (keeping each first occurrence's name)
with consecutive indices, and the links are the path along them with weight
1. -/
theorem extractToolCallOrder_char (t : Trace) (msgs : List Output)
    (h : t.outputs = some (some msgs)) :
    extractToolCallOrder t = (ordNodesSpec (allCalls msgs), ordLinksSpec (allCalls msgs)) := by
  have hfilterall : (allCallsIdx msgs.enum).filter
      (fun p => (mapGet ([] : List (String × OrderCall)) p.2.id).isNone)
      = allCallsIdx msgs.enum := by
    rw [show (fun p : Nat × ToolCall =>
        (mapGet ([] : List (String × OrderCall)) p.2.id).isNone) = fun _ => true from by
      funext p; rfl]
    exact List.filter_true _
  have hst : msgs.enum.foldl orderStep ([], 0)
      = (buildOrder 0 (allCallsIdx msgs.enum),
         0 + (buildOrder 0 (allCallsIdx msgs.enum)).length) := by
    rw [foldl_orderStep_flat, foldl_orderCallStep_char, hfilterall]
    simp
  have hsorted := buildOrder_sorted 0 (allCallsIdx msgs.enum)
  have hsort_eq : ((buildOrder 0 (allCallsIdx msgs.enum)).map Prod.snd).insertionSort
      (fun a b => a.index ≤ b.index)
      = (buildOrder 0 (allCallsIdx msgs.enum)).map Prod.snd :=
    List.Sorted.insertionSort_eq hsorted
  have hidname : ((buildOrder 0 (allCallsIdx msgs.enum)).map Prod.snd).map
        (fun c => (c.id, c.name))
      = (firstCallsById (allCalls msgs)).map (fun c => (c.id, c.name)) := by
    rw [buildOrder_idname, allCallsIdx_enum_map_snd]
  have hindex : ((buildOrder 0 (allCallsIdx msgs.enum)).map Prod.snd).map
        (fun c => c.index)
      = List.range' 0 ((buildOrder 0 (allCallsIdx msgs.enum)).map Prod.snd).length := by
    rw [buildOrder_index_eq]
    simp
  rw [show extractToolCallOrder t
      = (let st := msgs.enum.foldl orderStep ([], 0)
         let orderedCalls := (st.1.map Prod.snd).insertionSort (fun a b => a.index ≤ b.index)
         let nodes := orderedCalls.enum.map (fun p => OrderNode.mk p.2.id p.2.name p.1 p.2.index)
         let links := List.zipWith (fun a b => OrderLink.mk a.id b.id 1)
           orderedCalls orderedCalls.tail
         (nodes, links)) from by rw [extractToolCallOrder, h]]
  simp only [hst, hsort_eq]
  simp only [Prod.mk.injEq]
  constructor
  · rw [ordNodesSpec, show (firstCallsById (allCalls msgs)).enum
        = (firstCallsById (allCalls msgs)).enumFrom 0 from rfl,
      show ((buildOrder 0 (allCallsIdx msgs.enum)).map Prod.snd).enum
        = ((buildOrder 0 (allCallsIdx msgs.enum)).map Prod.snd).enumFrom 0 from rfl]
    exact nodes_build _ _ 0 hidname hindex
  · rw [ordLinksSpec]
    exact zipWith_proj_eq (fun c : OrderCall => (c.id, c.name))
      (fun c : ToolCall => (c.id, c.name))
      (fun a b => OrderLink.mk a.1 b.1 1) _ _ hidname

/-! ## C2: order-graph extraction -/

theorem enum_map_comp_snd {γ δ : Type _} (l : List γ) (f : γ → δ) :
    l.enum.map (fun p => f p.2) = l.map f := by
  rw [show (fun p : Nat × γ => f p.2) = f ∘ Prod.snd from rfl, ← List.map_map,
    List.enum_map_snd]

theorem firstCallsById_map_id :
    ∀ l : List ToolCall,
      (firstCallsById l).map (fun c => c.id) = firstSeenList (l.map (fun c => c.id)) := by
  intro l
  induction l using firstCallsById.induct with
  | case1 => simp [firstCallsById, firstSeenList]
  | case2 c l ih =>
    rw [firstCallsById, List.map_cons, List.map_cons, firstSeenList, ih]
    congr 2
    rw [List.filter_map]
    rfl

theorem ordNodesSpec_map_id (calls : List ToolCall) :
    (ordNodesSpec calls).map (fun n => n.id) = (firstCallsById calls).map (fun c => c.id) := by
  rw [ordNodesSpec, List.map_map]
  exact enum_map_comp_snd (firstCallsById calls) (fun c => c.id)

theorem ordNodesSpec_length (calls : List ToolCall) :
    (ordNodesSpec calls).length = (firstCallsById calls).length := by
  simp [ordNodesSpec]

theorem weight_one_of_mem_path :
    ∀ (l₁ l₂ : List OrderNode) (x : OrderLink),
      x ∈ List.zipWith (fun a b => OrderLink.mk a.id b.id 1) l₁ l₂ → x.weight = 1 := by
  intro l₁
  induction l₁ with
  | nil => intro l₂ x hx; simp at hx
  | cons a t ih =>
    intro l₂ x hx
    cases l₂ with
    | nil => simp at hx
    | cons b s =>
      rw [List.zipWith_cons_cons] at hx
      rcases List.mem_cons.mp hx with h | h
      · subst h; rfl
      · exact ih s x h

/-- C2: for every trace with a messages array, `extractToolCallOrder` returns
exactly one node per distinct call id (count = card of the id set), its nodes
listed in first-seen order with each node keeping the first occurrence's data
and consecutive indices, and its links forming the single path of length
nodeCount − 1 along the nodes in that order, every weight 1. -/
theorem extractToolCallOrder_spec (t : Trace) (msgs : List Output)
    (h : t.outputs = some (some msgs)) :
    extractToolCallOrder t = (ordNodesSpec (allCalls msgs), ordLinksSpec (allCalls msgs))
    ∧ (extractToolCallOrder t).1.length
        = (((allCalls msgs).map (fun c => c.id)).toFinset).card
    ∧ (extractToolCallOrder t).1.map (fun n => n.id)
        = firstSeenList ((allCalls msgs).map (fun c => c.id))
    ∧ (extractToolCallOrder t).2
        = List.zipWith (fun a b => OrderLink.mk a.id b.id 1)
            (extractToolCallOrder t).1 (extractToolCallOrder t).1.tail
    ∧ (extractToolCallOrder t).2.length = (extractToolCallOrder t).1.length - 1
    ∧ ∀ lnk ∈ (extractToolCallOrder t).2, lnk.weight = 1 := by
  have hchar := extractToolCallOrder_char t msgs h
  have hids : (extractToolCallOrder t).1.map (fun n => n.id)
      = firstSeenList ((allCalls msgs).map (fun c => c.id)) := by
    rw [hchar]
    simp only
    rw [ordNodesSpec_map_id, firstCallsById_map_id]
  have hpath : (extractToolCallOrder t).2
      = List.zipWith (fun a b => OrderLink.mk a.id b.id 1)
          (extractToolCallOrder t).1 (extractToolCallOrder t).1.tail := by
    rw [hchar]
    simp only
    rw [ordLinksSpec]
    exact (zipWith_proj_eq (fun n : OrderNode => n.id) (fun c : ToolCall => c.id)
      (fun a b => OrderLink.mk a b 1) (ordNodesSpec (allCalls msgs))
      (firstCallsById (allCalls msgs)) (ordNodesSpec_map_id _)).symm
  refine ⟨hchar, ?_, hids, hpath, ?_, ?_⟩
  · have hlen : (extractToolCallOrder t).1.length
        = (firstSeenList ((allCalls msgs).map (fun c => c.id))).length := by
      rw [← hids, List.length_map]
    rw [hlen, firstSeenList_length_eq_card]
  · rw [hpath, List.length_zipWith, List.length_tail]
    omega
  · intro lnk hlnk
    rw [hpath] at hlnk
    exact weight_one_of_mem_path _ _ _ hlnk

/-- Witness for C2 at a trace whose call id "x" is re-used with a different
name: the duplicate keeps the first occurrence's name and index, and the
links form the single path x → y. -/
theorem extractToolCallOrder_spec_witness :
    (traceDup.outputs = some (some msgsDup))
    ∧ (extractToolCallOrder traceDup
         = (ordNodesSpec (allCalls msgsDup), ordLinksSpec (allCalls msgsDup))
       ∧ (extractToolCallOrder traceDup).1.length
           = (((allCalls msgsDup).map (fun c => c.id)).toFinset).card
       ∧ (extractToolCallOrder traceDup).1.map (fun n => n.id)
           = firstSeenList ((allCalls msgsDup).map (fun c => c.id))
       ∧ (extractToolCallOrder traceDup).2
           = List.zipWith (fun a b => OrderLink.mk a.id b.id 1)
               (extractToolCallOrder traceDup).1 (extractToolCallOrder traceDup).1.tail
       ∧ (extractToolCallOrder traceDup).2.length
           = (extractToolCallOrder traceDup).1.length - 1
       ∧ ∀ lnk ∈ (extractToolCallOrder traceDup).2, lnk.weight = 1)
    ∧ (extractToolCallOrder traceDup).1.map (fun n => (n.id, n.name, n.index, n.callIndex))
        = [("x", "alpha", 0, 0), ("y", "beta", 1, 1)]
    ∧ (extractToolCallOrder traceDup).2 = [⟨"x", "y", 1⟩] :=
  ⟨rfl, extractToolCallOrder_spec traceDup msgsDup rfl, by decide, by decide⟩

/-! ## Lemmas: flow-graph extraction -/

theorem foldl_flowStep_flat :
    ∀ (l : List (Nat × Output)) (st : (List (String × OrderCall) × Nat) × List String),
      l.foldl flowStep st = (allCallsIdx l).foldl flowCallStep st := by
  intro l
  induction l with
  | nil => intro st; rfl
  | cons oi l ih =>
    intro st
    obtain ⟨i, o⟩ := oi
    rw [List.foldl_cons, allCallsIdx_cons, List.foldl_append]
    cases o with
    | toolCallEvent cs =>
      rw [show flowStep st (i, Output.toolCallEvent cs)
          = cs.foldl (fun s c => flowCallStep s (i, c)) st from rfl,
        show outputCalls (Output.toolCallEvent cs) = cs from rfl,
        ← List.foldl_map (fun c => (i, c)) flowCallStep, ih]
    | toolResultEvent cid stat cont =>
      rw [show flowStep st (i, Output.toolResultEvent cid stat cont) = st from rfl, ih]
      rfl
    | unknown =>
      rw [show flowStep st (i, Output.unknown) = st from rfl, ih]
      rfl

theorem foldl_flowCallStep_char :
    ∀ (ps : List (Nat × ToolCall)) (m : List (String × OrderCall)) (k : Nat)
      (sq : List String),
      ps.foldl flowCallStep ((m, k), sq)
        = ((m ++ buildOrder k (ps.filter (fun p => (mapGet m p.2.id).isNone)),
            k + (buildOrder k (ps.filter (fun p => (mapGet m p.2.id).isNone))).length),
           sq ++ ((buildOrder k (ps.filter (fun p => (mapGet m p.2.id).isNone))).map
             (fun e => e.2.name))) := by
  intro ps
  induction ps with
  | nil => intro m k sq; simp [buildOrder]
  | cons p ps ih =>
    intro m k sq
    rw [List.foldl_cons]
    cases hg : mapGet m p.2.id with
    | some e =>
      rw [show flowCallStep ((m, k), sq) p = ((m, k), sq) from by
        simp [flowCallStep, hg]]
      rw [show (p :: ps).filter (fun p => (mapGet m p.2.id).isNone)
          = ps.filter (fun p => (mapGet m p.2.id).isNone) from by
        simp [List.filter_cons, hg]]
      exact ih m k sq
    | none =>
      have hstep : flowCallStep ((m, k), sq) p
          = ((m ++ [(p.2.id, ⟨p.2.id, p.2.name, k, p.2.args, p.1⟩)], k + 1),
             sq ++ [p.2.name]) := by
        simp [flowCallStep, hg, mapSet_of_get_none _ _ _ hg]
      rw [hstep, ih]
      have hpred : ∀ q : Nat × ToolCall,
          (mapGet (m ++ [(p.2.id, (⟨p.2.id, p.2.name, k, p.2.args, p.1⟩ : OrderCall))]) q.2.id).isNone
            = ((mapGet m q.2.id).isNone && decide (q.2.id ≠ p.2.id)) := by
        intro q
        cases hq : mapGet m q.2.id with
        | some w => rw [mapGet_append_of_some _ _ _ _ hq]; rfl
        | none =>
          rw [mapGet_append_of_none _ _ _ hq]
          by_cases hqp : p.2.id = q.2.id
          · simp [mapGet, hqp]
          · simp only [mapGet, if_neg hqp]
            simp [Ne.symm hqp]
      have hfil : ps.filter (fun q =>
            (mapGet (m ++ [(p.2.id, (⟨p.2.id, p.2.name, k, p.2.args, p.1⟩ : OrderCall))]) q.2.id).isNone)
          = (ps.filter (fun q => (mapGet m q.2.id).isNone)).filter
              (fun q => decide (q.2.id ≠ p.2.id)) := by
        rw [List.filter_filter]
        apply List.filter_congr
        intro q _
        rw [hpred q, Bool.and_comm]
      have hconsfil : (p :: ps).filter (fun q => (mapGet m q.2.id).isNone)
          = p :: ps.filter (fun q => (mapGet m q.2.id).isNone) := by
        simp [List.filter_cons, hg]
      rw [hfil, hconsfil, buildOrder]
      simp only [Prod.mk.injEq, List.map_cons]
      refine ⟨⟨?_, ?_⟩, ?_⟩
      · rw [List.append_assoc]
        rfl
      · simp only [List.length_cons]
        omega
      · rw [List.append_assoc]
        rfl

theorem bumpW_zero (e : FlowLink) : bumpW e 0 = e := by
  simp [bumpW]

theorem bumpW_succ (e : FlowLink) (n : Nat) :
    bumpW { e with weight := e.weight + 1 } n = bumpW e (n + 1) := by
  simp [bumpW]
  omega

theorem mapSet_bump_sum :
    ∀ (m : List (String × FlowLink)) (k : String) (e : FlowLink),
      mapGet m k = some e →
      (((mapSet m k { e with weight := e.weight + 1 }).map (fun kv => kv.2.weight)).sum)
        = ((m.map (fun kv => kv.2.weight)).sum) + 1 := by
  intro m
  induction m with
  | nil => intro k e h; simp [mapGet] at h
  | cons hd tl ih =>
    intro k e h
    obtain ⟨k₁, e₁⟩ := hd
    by_cases h₁ : k₁ = k
    · subst h₁
      simp [mapGet] at h
      subst h
      simp [mapSet]
      omega
    · simp only [mapGet, if_neg h₁] at h
      simp only [mapSet, if_neg h₁, List.map_cons, List.sum_cons, ih _ _ h]
      omega

theorem foldl_edgeStep_sum :
    ∀ (ps : List (Nat × String × String)) (m : List (String × FlowLink)),
      (((ps.foldl edgeStep m).map (fun kv => kv.2.weight)).sum)
        = ((m.map (fun kv => kv.2.weight)).sum) + ps.length := by
  intro ps
  induction ps with
  | nil => intro m; simp
  | cons q ps ih =>
    intro m
    rw [List.foldl_cons]
    cases hget : mapGet m (edgeKey q.2.1 q.2.2) with
    | some e =>
      rw [show edgeStep m q = mapSet m (edgeKey q.2.1 q.2.2) { e with weight := e.weight + 1 }
          from by simp [edgeStep, hget]]
      rw [ih, mapSet_bump_sum m _ e hget]
      simp only [List.length_cons]
      omega
    | none =>
      rw [show edgeStep m q
          = m ++ [(edgeKey q.2.1 q.2.2, (⟨q.2.1, q.2.2, 1, [q.1, q.1 + 1]⟩ : FlowLink))] from by
        simp [edgeStep, hget, mapSet_of_get_none _ _ _ hget]]
      rw [ih]
      simp only [List.map_append, List.sum_append, List.length_cons, List.map_cons,
        List.sum_cons, List.map_nil, List.sum_nil]
      omega

theorem mapSet_bump_map :
    ∀ (m : List (String × FlowLink)) (k : String) (e : FlowLink) (cnt : String → Nat),
      mapGet m k = some e → ((m.map Prod.fst).Nodup) →
      (mapSet m k { e with weight := e.weight + 1 }).map
          (fun kv => (kv.1, bumpW kv.2 (cnt kv.1)))
        = m.map (fun kv => (kv.1, bumpW kv.2 (cnt kv.1 + if kv.1 = k then 1 else 0))) := by
  intro m
  induction m with
  | nil => intro k e cnt h _; simp [mapGet] at h
  | cons hd tl ih =>
    intro k e cnt h hnd
    obtain ⟨k₁, e₁⟩ := hd
    simp only [List.map_cons, List.nodup_cons] at hnd
    by_cases h₁ : k₁ = k
    · subst h₁
      simp [mapGet] at h
      subst h
      have hset : mapSet ((k₁, e₁) :: tl) k₁ { e₁ with weight := e₁.weight + 1 }
          = (k₁, { e₁ with weight := e₁.weight + 1 }) :: tl := by
        simp [mapSet]
      rw [hset, List.map_cons, List.map_cons, bumpW_succ]
      congr 1
      · simp
      · apply List.map_congr_left
        intro kv hkv
        have hne : kv.1 ≠ k₁ := by
          intro hk
          exact hnd.1 (hk ▸ List.mem_map_of_mem Prod.fst hkv)
        rw [if_neg hne]
        simp
    · simp only [mapGet, if_neg h₁] at h
      simp only [mapSet, if_neg h₁, List.map_cons, if_neg h₁]
      rw [ih _ _ _ h hnd.2]
      simp

theorem foldl_edgeStep_char :
    ∀ (ps : List (Nat × String × String)) (m : List (String × FlowLink)),
      (m.map Prod.fst).Nodup →
      ps.foldl edgeStep m
        = m.map (fun kv => (kv.1, bumpW kv.2
            (ps.countP (fun q => decide (edgeKey q.2.1 q.2.2 = kv.1)))))
          ++ buildLinksKeyed (ps.filter (fun q => (mapGet m (edgeKey q.2.1 q.2.2)).isNone)) := by
  intro ps
  induction ps with
  | nil =>
    intro m _
    simp only [List.foldl_nil, List.countP_nil, bumpW_zero, List.filter_nil]
    rw [show buildLinksKeyed [] = [] from by rw [buildLinksKeyed]]
    simp
  | cons q ps ih =>
    intro m hnd
    rw [List.foldl_cons]
    cases hget : mapGet m (edgeKey q.2.1 q.2.2) with
    | some e =>
      have hstep : edgeStep m q
          = mapSet m (edgeKey q.2.1 q.2.2) { e with weight := e.weight + 1 } := by
        simp [edgeStep, hget]
      have hkeys : ((mapSet m (edgeKey q.2.1 q.2.2)
          { e with weight := e.weight + 1 }).map Prod.fst).Nodup := by
        rw [mapSet_keys_of_get_some _ _ _ _ hget]
        exact hnd
      rw [hstep, ih _ hkeys]
      have hisnone : ∀ x, (mapGet (mapSet m (edgeKey q.2.1 q.2.2)
          { e with weight := e.weight + 1 }) x).isNone = (mapGet m x).isNone := by
        intro x
        by_cases hx : x = edgeKey q.2.1 q.2.2
        · subst hx
          rw [mapGet_mapSet_self, hget]
          rfl
        · rw [mapGet_mapSet_ne _ _ _ _ (Ne.symm hx)]
      have hmap0 := mapSet_bump_map m (edgeKey q.2.1 q.2.2) e
        (fun y => ps.countP (fun x => decide (edgeKey x.2.1 x.2.2 = y))) hget hnd
      simp only at hmap0
      have hfil : ps.filter (fun x => (mapGet (mapSet m (edgeKey q.2.1 q.2.2)
            { e with weight := e.weight + 1 }) (edgeKey x.2.1 x.2.2)).isNone)
          = ps.filter (fun x => (mapGet m (edgeKey x.2.1 x.2.2)).isNone) := by
        apply List.filter_congr
        intro x _
        rw [hisnone]
      have hconsfil : (q :: ps).filter (fun x => (mapGet m (edgeKey x.2.1 x.2.2)).isNone)
          = ps.filter (fun x => (mapGet m (edgeKey x.2.1 x.2.2)).isNone) := by
        simp [List.filter_cons, hget]
      rw [hmap0, hfil, hconsfil]
      congr 1
      apply List.map_congr_left
      intro kv _
      have hcntq : (q :: ps).countP (fun x => decide (edgeKey x.2.1 x.2.2 = kv.1))
          = ps.countP (fun x => decide (edgeKey x.2.1 x.2.2 = kv.1))
            + if kv.1 = edgeKey q.2.1 q.2.2 then 1 else 0 := by
        rw [List.countP_cons]
        by_cases hkv : kv.1 = edgeKey q.2.1 q.2.2
        · simp [hkv]
        · have hdec : decide (edgeKey q.2.1 q.2.2 = kv.1) = false :=
            decide_eq_false (fun hh => hkv hh.symm)
          simp [hdec, hkv]
      rw [hcntq]
    | none =>
      have hstep : edgeStep m q
          = m ++ [(edgeKey q.2.1 q.2.2, (⟨q.2.1, q.2.2, 1, [q.1, q.1 + 1]⟩ : FlowLink))] := by
        simp [edgeStep, hget, mapSet_of_get_none _ _ _ hget]
      have hknotin : edgeKey q.2.1 q.2.2 ∉ m.map Prod.fst :=
        (mapGet_eq_none_iff m _).mp hget
      have hnd' : (((m ++ [(edgeKey q.2.1 q.2.2,
          (⟨q.2.1, q.2.2, 1, [q.1, q.1 + 1]⟩ : FlowLink))])).map Prod.fst).Nodup := by
        rw [List.map_append]
        rw [List.nodup_append]
        refine ⟨hnd, List.nodup_singleton _, ?_⟩
        intro a ha hb
        simp only [List.map_cons, List.map_nil, List.mem_singleton] at hb
        subst hb
        exact hknotin ha
      rw [hstep, ih _ hnd']
      have hpred : ∀ x, (mapGet (m ++ [(edgeKey q.2.1 q.2.2,
            (⟨q.2.1, q.2.2, 1, [q.1, q.1 + 1]⟩ : FlowLink))]) x).isNone
          = ((mapGet m x).isNone && decide (x ≠ edgeKey q.2.1 q.2.2)) := by
        intro x
        cases hx : mapGet m x with
        | some w => rw [mapGet_append_of_some _ _ _ _ hx]; rfl
        | none =>
          rw [mapGet_append_of_none _ _ _ hx]
          by_cases hxk : edgeKey q.2.1 q.2.2 = x
          · simp [mapGet, hxk]
          · simp only [mapGet, if_neg hxk]
            simp [Ne.symm hxk]
      have hfil : ps.filter (fun x => (mapGet (m ++ [(edgeKey q.2.1 q.2.2,
            (⟨q.2.1, q.2.2, 1, [q.1, q.1 + 1]⟩ : FlowLink))]) (edgeKey x.2.1 x.2.2)).isNone)
          = (ps.filter (fun x => (mapGet m (edgeKey x.2.1 x.2.2)).isNone)).filter
              (fun x => decide (edgeKey x.2.1 x.2.2 ≠ edgeKey q.2.1 q.2.2)) := by
        rw [List.filter_filter]
        apply List.filter_congr
        intro x _
        rw [hpred, Bool.and_comm]
      have hconsfil : (q :: ps).filter (fun x => (mapGet m (edgeKey x.2.1 x.2.2)).isNone)
          = q :: ps.filter (fun x => (mapGet m (edgeKey x.2.1 x.2.2)).isNone) := by
        simp [List.filter_cons, hget]
      have hcnt : (ps.filter (fun x => (mapGet m (edgeKey x.2.1 x.2.2)).isNone)).countP
            (fun x => decide (edgeKey x.2.1 x.2.2 = edgeKey q.2.1 q.2.2))
          = ps.countP (fun x => decide (edgeKey x.2.1 x.2.2 = edgeKey q.2.1 q.2.2)) := by
        rw [List.countP_filter]
        apply List.countP_congr
        intro x _
        by_cases hx : edgeKey x.2.1 x.2.2 = edgeKey q.2.1 q.2.2
        · simp [hx, hget]
        · simp [hx]
      have hmapG : m.map (fun kv => (kv.1, bumpW kv.2
            (ps.countP (fun x => decide (edgeKey x.2.1 x.2.2 = kv.1)))))
          = m.map (fun kv => (kv.1, bumpW kv.2
            ((q :: ps).countP (fun x => decide (edgeKey x.2.1 x.2.2 = kv.1))))) := by
        apply List.map_congr_left
        intro kv hkv
        have hne : kv.1 ≠ edgeKey q.2.1 q.2.2 := by
          intro hk
          exact hknotin (hk ▸ List.mem_map_of_mem Prod.fst hkv)
        congr 2
        rw [List.countP_cons]
        have hdec : decide (edgeKey q.2.1 q.2.2 = kv.1) = false :=
          decide_eq_false (fun hh => hne hh.symm)
        simp [hdec]
      rw [hfil, hconsfil, List.map_append, hmapG, buildLinksKeyed]
      simp only [List.map_cons, List.map_nil]
      rw [List.append_assoc]
      congr 2
      rw [hcnt]
      simp [bumpW, Nat.add_comm]

theorem buildLinksKeyed_key_eq :
    ∀ (ps : List (Nat × String × String)) (kv : String × FlowLink),
      kv ∈ buildLinksKeyed ps → kv.1 = edgeKey kv.2.source kv.2.target := by
  intro ps
  induction ps using buildLinksKeyed.induct with
  | case1 => intro kv hkv; rw [buildLinksKeyed] at hkv; simp at hkv
  | case2 p rest ih =>
    intro kv hkv
    rw [buildLinksKeyed] at hkv
    rcases List.mem_cons.mp hkv with hh | hh
    · subst hh; rfl
    · exact ih kv hh

theorem buildLinksKeyed_key_of_mem :
    ∀ (ps : List (Nat × String × String)) (kv : String × FlowLink),
      kv ∈ buildLinksKeyed ps → ∃ x ∈ ps, edgeKey x.2.1 x.2.2 = kv.1 := by
  intro ps
  induction ps using buildLinksKeyed.induct with
  | case1 => intro kv hkv; rw [buildLinksKeyed] at hkv; simp at hkv
  | case2 p rest ih =>
    intro kv hkv
    rw [buildLinksKeyed] at hkv
    rcases List.mem_cons.mp hkv with hh | hh
    · subst hh
      exact ⟨p, List.mem_cons_self _ _, rfl⟩
    · obtain ⟨x, hx, hxk⟩ := ih kv hh
      exact ⟨x, List.mem_cons_of_mem _ (List.mem_of_mem_filter hx), hxk⟩

theorem buildLinksKeyed_keys_nodup :
    ∀ ps : List (Nat × String × String), ((buildLinksKeyed ps).map Prod.fst).Nodup := by
  intro ps
  induction ps using buildLinksKeyed.induct with
  | case1 => rw [buildLinksKeyed]; simp
  | case2 p rest ih =>
    rw [buildLinksKeyed]
    simp only [List.map_cons, List.nodup_cons]
    refine ⟨?_, ih⟩
    intro hmem
    obtain ⟨kv, hkv, hk⟩ := List.mem_map.mp hmem
    obtain ⟨x, hx, hxk⟩ := buildLinksKeyed_key_of_mem _ kv hkv
    have hxne := List.of_mem_filter hx
    rw [hk] at hxk
    simp only [decide_eq_true_eq] at hxne
    exact hxne hxk

theorem buildLinksKeyed_weight :
    ∀ (ps : List (Nat × String × String)) (kv : String × FlowLink),
      kv ∈ buildLinksKeyed ps →
      kv.2.weight = ps.countP (fun x => decide (edgeKey x.2.1 x.2.2 = kv.1)) := by
  intro ps
  induction ps using buildLinksKeyed.induct with
  | case1 => intro kv hkv; rw [buildLinksKeyed] at hkv; simp at hkv
  | case2 p rest ih =>
    intro kv hkv
    rw [buildLinksKeyed] at hkv
    rcases List.mem_cons.mp hkv with hh | hh
    · subst hh
      simp only [List.countP_cons, decide_eq_true_eq, eq_self_iff_true, if_true]
      omega
    · have hkne : kv.1 ≠ edgeKey p.2.1 p.2.2 := by
        obtain ⟨x, hx, hxk⟩ := buildLinksKeyed_key_of_mem _ kv hh
        have hxne := List.of_mem_filter hx
        simp only [decide_eq_true_eq] at hxne
        rw [← hxk]
        exact hxne
      rw [ih kv hh]
      have hcnt : (rest.filter
            (fun x => decide (edgeKey x.2.1 x.2.2 ≠ edgeKey p.2.1 p.2.2))).countP
            (fun x => decide (edgeKey x.2.1 x.2.2 = kv.1))
          = rest.countP (fun x => decide (edgeKey x.2.1 x.2.2 = kv.1)) := by
        rw [List.countP_filter]
        apply List.countP_congr
        intro x _
        by_cases hx : edgeKey x.2.1 x.2.2 = kv.1
        · simp [hx, hkne]
        · simp [hx]
      rw [hcnt, List.countP_cons]
      have hdec : decide (edgeKey p.2.1 p.2.2 = kv.1) = false :=
        decide_eq_false (fun hh₂ => hkne hh₂.symm)
      simp [hdec]

theorem foldl_edgeStep_nil (pairs : List (Nat × String × String)) :
    pairs.foldl edgeStep [] = buildLinksKeyed pairs := by
  rw [foldl_edgeStep_char pairs [] (by simp)]
  rw [show (fun q : Nat × String × String =>
      (mapGet ([] : List (String × FlowLink)) (edgeKey q.2.1 q.2.2)).isNone)
      = fun _ => true from by funext q; rfl]
  rw [List.filter_true]
  simp

theorem buildLinksKeyed_weight_sum (ps : List (Nat × String × String)) :
    (((buildLinksKeyed ps).map (fun kv => kv.2.weight)).sum) = ps.length := by
  have h₁ := foldl_edgeStep_sum ps []
  rw [foldl_edgeStep_nil] at h₁
  simpa using h₁

/-- Full characterization of `extractToolCallFlow`: the call sequence is one
name per first-seen call id, the nodes are the distinct names in first-seen
order with their occurrence counts, and the links are one per first-seen
distinct key string `source->target` with accumulated weights and the first
occurrence's position pair. -/
theorem extractToolCallFlow_char (t : Trace) (msgs : List Output)
    (h : t.outputs = some (some msgs)) :
    extractToolCallFlow t
      = (flowNodesSpec (flowSeqSpec (allCalls msgs)),
         flowLinksSpec (flowSeqSpec (allCalls msgs)),
         flowSeqSpec (allCalls msgs)) := by
  have hfilterall : (allCallsIdx msgs.enum).filter
      (fun p => (mapGet ([] : List (String × OrderCall)) p.2.id).isNone)
      = allCallsIdx msgs.enum := by
    rw [show (fun p : Nat × ToolCall =>
        (mapGet ([] : List (String × OrderCall)) p.2.id).isNone) = fun _ => true from by
      funext p; rfl]
    exact List.filter_true _
  have hnames : (buildOrder 0 (allCallsIdx msgs.enum)).map (fun e => e.2.name)
      = flowSeqSpec (allCalls msgs) := by
    rw [show (fun e : String × OrderCall => e.2.name)
        = (fun c : OrderCall => c.name) ∘ Prod.snd from rfl, ← List.map_map,
      buildOrder_names, allCallsIdx_enum_map_snd]
    rfl
  have hst : msgs.enum.foldl flowStep (([], 0), [])
      = ((buildOrder 0 (allCallsIdx msgs.enum),
          0 + (buildOrder 0 (allCallsIdx msgs.enum)).length),
         flowSeqSpec (allCalls msgs)) := by
    rw [foldl_flowStep_flat, foldl_flowCallStep_char, hfilterall, hnames]
    simp
  have hlinks : ∀ pairs : List (Nat × String × String),
      pairs.foldl edgeStep [] = buildLinksKeyed pairs := fun pairs =>
    foldl_edgeStep_nil pairs
  rw [show extractToolCallFlow t
      = (let st := msgs.enum.foldl flowStep (([], 0), [])
         let callSequence := st.2
         let uniqueToolNames := callSequence.foldl setAdd []
         let nodes := uniqueToolNames.enum.map
           (fun p => FlowNode.mk p.2 p.2 p.1
             ((callSequence.filter (fun n => decide (n = p.2))).length))
         let pairs := (callSequence.zip callSequence.tail).enum
         let links := (pairs.foldl edgeStep []).map Prod.snd
         (nodes, links, callSequence)) from by rw [extractToolCallFlow, h]]
  simp only [hst, hlinks, foldl_setAdd_nil_eq]
  rfl

/-! ## C3: flow-graph extraction -/

theorem countP_enum_snd {γ : Type _} (l : List γ) (p : γ → Bool) :
    l.enum.countP (fun x => p x.2) = l.countP p := by
  have h₁ : l.enum.countP (fun x => p x.2) = (l.enum.map Prod.snd).countP p := by
    rw [List.countP_map]
    rfl
  rw [h₁, List.enum_map_snd]

/-- C3 (amended): for every trace with a messages array,
`extractToolCallFlow` returns one node per distinct tool name (in first-seen
order) with `count` equal to the name's occurrences in the first-seen call
sequence; its links carry one entry per first-seen distinct key string
`source->target` (distinct name pairs whose concatenated keys coincide are
merged into one link keeping the first pair's source/target) with weight
equal to the number of consecutive transitions producing that key; and the
sum of all link weights equals sequenceLength − 1 (0 for the empty
sequence). -/
theorem extractToolCallFlow_spec (t : Trace) (msgs : List Output)
    (h : t.outputs = some (some msgs)) :
    extractToolCallFlow t
      = (flowNodesSpec (flowSeqSpec (allCalls msgs)),
         flowLinksSpec (flowSeqSpec (allCalls msgs)),
         flowSeqSpec (allCalls msgs))
    ∧ (extractToolCallFlow t).1.length
        = (firstSeenList (flowSeqSpec (allCalls msgs))).length
    ∧ (∀ nd ∈ (extractToolCallFlow t).1,
        nd.count = (((extractToolCallFlow t).2.2.filter
          (fun n => decide (n = nd.name))).length))
    ∧ (∀ lnk ∈ (extractToolCallFlow t).2.1,
        lnk.weight = ((extractToolCallFlow t).2.2.zip
            (extractToolCallFlow t).2.2.tail).countP
          (fun x => decide (edgeKey x.1 x.2 = edgeKey lnk.source lnk.target)))
    ∧ ((extractToolCallFlow t).2.1.map (fun lnk => edgeKey lnk.source lnk.target)).Nodup
    ∧ (((extractToolCallFlow t).2.1.map (fun lnk => lnk.weight)).sum
        = (extractToolCallFlow t).2.2.length - 1) := by
  have hchar := extractToolCallFlow_char t msgs h
  refine ⟨hchar, ?_, ?_, ?_, ?_, ?_⟩
  · rw [hchar]
    simp [flowNodesSpec]
  · rw [hchar]
    intro nd hnd
    simp only [flowNodesSpec] at hnd ⊢
    obtain ⟨p, _, hp⟩ := List.mem_map.mp hnd
    subst hp
    rfl
  · rw [hchar]
    intro lnk hlnk
    simp only [flowLinksSpec] at hlnk ⊢
    obtain ⟨kv, hkv, hkvl⟩ := List.mem_map.mp hlnk
    subst hkvl
    have hw := buildLinksKeyed_weight _ kv hkv
    have hkey := buildLinksKeyed_key_eq _ kv hkv
    rw [← hkey, hw]
    rw [countP_enum_snd ((flowSeqSpec (allCalls msgs)).zip (flowSeqSpec (allCalls msgs)).tail)
      (fun x => decide (edgeKey x.1 x.2 = kv.1))]
  · rw [hchar]
    simp only [flowLinksSpec]
    rw [List.map_map]
    have : ((fun lnk : FlowLink => edgeKey lnk.source lnk.target) ∘ Prod.snd)
        = fun kv : String × FlowLink => edgeKey kv.2.source kv.2.target := rfl
    rw [this]
    have hcongr : (buildLinksKeyed ((flowSeqSpec (allCalls msgs)).zip
          (flowSeqSpec (allCalls msgs)).tail).enum).map
          (fun kv => edgeKey kv.2.source kv.2.target)
        = (buildLinksKeyed ((flowSeqSpec (allCalls msgs)).zip
            (flowSeqSpec (allCalls msgs)).tail).enum).map Prod.fst := by
      apply List.map_congr_left
      intro kv hkv
      exact (buildLinksKeyed_key_eq _ kv hkv).symm
    rw [hcongr]
    exact buildLinksKeyed_keys_nodup _
  · rw [hchar]
    simp only [flowLinksSpec]
    rw [List.map_map]
    have : ((fun lnk : FlowLink => lnk.weight) ∘ Prod.snd)
        = fun kv : String × FlowLink => kv.2.weight := rfl
    rw [this, buildLinksKeyed_weight_sum]
    rw [List.enum_length, List.length_zip, List.length_tail]
    have hse : (flowSeqSpec (allCalls msgs)).length ⊓ ((flowSeqSpec (allCalls msgs)).length - 1)
        = (flowSeqSpec (allCalls msgs)).length - 1 := by omega
    exact hse

/-- Witness for C3 at the call sequence `[A, B, A, B, C]`: the theorem applies,
and concretely the nodes are A:2, B:2, C:1 and the links are A→B weight 2,
B→A weight 1 and B→C weight 1, with weight sum 4. -/
theorem extractToolCallFlow_spec_witness :
    (traceABABC.outputs = some (some msgsABABC))
    ∧ (extractToolCallFlow traceABABC
         = (flowNodesSpec (flowSeqSpec (allCalls msgsABABC)),
            flowLinksSpec (flowSeqSpec (allCalls msgsABABC)),
            flowSeqSpec (allCalls msgsABABC))
       ∧ (extractToolCallFlow traceABABC).1.length
           = (firstSeenList (flowSeqSpec (allCalls msgsABABC))).length
       ∧ (∀ nd ∈ (extractToolCallFlow traceABABC).1,
           nd.count = (((extractToolCallFlow traceABABC).2.2.filter
             (fun n => decide (n = nd.name))).length))
       ∧ (∀ lnk ∈ (extractToolCallFlow traceABABC).2.1,
           lnk.weight = ((extractToolCallFlow traceABABC).2.2.zip
               (extractToolCallFlow traceABABC).2.2.tail).countP
             (fun x => decide (edgeKey x.1 x.2 = edgeKey lnk.source lnk.target)))
       ∧ ((extractToolCallFlow traceABABC).2.1.map
           (fun lnk => edgeKey lnk.source lnk.target)).Nodup
       ∧ (((extractToolCallFlow traceABABC).2.1.map (fun lnk => lnk.weight)).sum
           = (extractToolCallFlow traceABABC).2.2.length - 1))
    ∧ (extractToolCallFlow traceABABC).2.2 = ["A", "B", "A", "B", "C"]
    ∧ (extractToolCallFlow traceABABC).1
        = [⟨"A", "A", 0, 2⟩, ⟨"B", "B", 1, 2⟩, ⟨"C", "C", 2, 1⟩]
    ∧ (extractToolCallFlow traceABABC).2.1
        = [⟨"A", "B", 2, [0, 1]⟩, ⟨"B", "A", 1, [1, 2]⟩, ⟨"B", "C", 1, [3, 4]⟩] :=
  ⟨rfl, extractToolCallFlow_spec traceABABC msgsABABC rfl, by decide, by decide, by decide⟩

/-- C3 counterexample: with tool names containing the literal `->`, distinct
consecutive name pairs collide in the string-keyed edge map: the call
sequence `[a, b->c, a->b, c]` has 3 distinct consecutive pairs but only 2
links — the transition `(a->b, c)` is merged into the link for `(a, b->c)`,
whose weight becomes 2 although that transition occurred once. -/
theorem extractToolCallFlow_arrow_collision :
    (extractToolCallFlow traceArrowNames).2.1.length = 2
    ∧ (firstSeenList ((extractToolCallFlow traceArrowNames).2.2.zip
        (extractToolCallFlow traceArrowNames).2.2.tail)).length = 3
    ∧ (extractToolCallFlow traceArrowNames).2.1.map
        (fun lnk => (lnk.source, lnk.target, lnk.weight))
        = [("a", "b->c", 2), ("b->c", "a->b", 1)] := by
  refine ⟨by decide, ?_, by decide⟩
  rw [← foldl_setAdd_nil_eq]
  decide

/-! ## C7: dangling results are dropped -/

theorem mapGet_foldl_setInfo_none :
    ∀ (cs : List ToolCall) (m : List (String × ToolCallInfo)) (x : String),
      mapGet m x = none → x ∉ cs.map (fun c => c.id) →
      mapGet (cs.foldl (fun m c => mapSet m c.id (mkToolCallInfo c)) m) x = none := by
  intro cs
  induction cs with
  | nil => intro m x h _; exact h
  | cons c cs ih =>
    intro m x h hnot
    simp only [List.map_cons, List.mem_cons] at hnot
    push_neg at hnot
    rw [List.foldl_cons]
    exact ih _ x (by rw [mapGet_mapSet_ne _ _ _ _ (fun hc => hnot.1 hc.symm)]; exact h) hnot.2

theorem mapGet_foldl_processOutputMap_none :
    ∀ (msgs : List Output) (m : List (String × ToolCallInfo)) (x : String),
      mapGet m x = none → x ∉ (allCalls msgs).map (fun c => c.id) →
      mapGet (msgs.foldl processOutputMap m) x = none := by
  intro msgs
  induction msgs with
  | nil => intro m x h _; exact h
  | cons o msgs ih =>
    intro m x h hnot
    rw [allCalls_cons, List.map_append, List.mem_append] at hnot
    push_neg at hnot
    rw [List.foldl_cons]
    cases o with
    | toolCallEvent cs =>
      exact ih _ x (mapGet_foldl_setInfo_none cs m x h hnot.1) hnot.2
    | toolResultEvent cid stat cont =>
      cases hget : mapGet m cid with
      | none =>
        refine ih _ x ?_ hnot.2
        simpa [processOutputMap, hget] using h
      | some info =>
        refine ih _ x ?_ hnot.2
        have hxc : cid ≠ x := by
          intro hc
          rw [hc, h] at hget
          exact Option.noConfusion hget
        simp only [processOutputMap, hget]
        rw [mapGet_mapSet_ne _ _ _ _ hxc]
        exact h
    | unknown => exact ih _ x h hnot.2

/-- C7: a `ToolResultEvent` whose `tool_call_id` matches no prior request in
the trace changes nothing: `getTools` (whose per-trace map lookup misses, so
the patch is skipped), `extractToolCallOrder` and `extractToolCallFlow`
(which ignore result events entirely) all return results identical to
extracting the trace with that event omitted, and extraction of the
remaining events proceeds normally. -/
theorem dangling_result_dropped (pre post : List Output) (x s c : String)
    (i : Option Nat) (sc : Option Int)
    (h : x ∉ (allCalls pre).map (fun cl => cl.id)) :
    getTools [⟨i, sc, some (some (pre ++ Output.toolResultEvent x s c :: post))⟩]
      = getTools [⟨i, sc, some (some (pre ++ post))⟩]
    ∧ extractToolCallOrder ⟨i, sc, some (some (pre ++ Output.toolResultEvent x s c :: post))⟩
      = extractToolCallOrder ⟨i, sc, some (some (pre ++ post))⟩
    ∧ extractToolCallFlow ⟨i, sc, some (some (pre ++ Output.toolResultEvent x s c :: post))⟩
      = extractToolCallFlow ⟨i, sc, some (some (pre ++ post))⟩ := by
  have hcalls : allCalls (pre ++ Output.toolResultEvent x s c :: post)
      = allCalls (pre ++ post) := by
    rw [allCalls_append, allCalls_cons, allCalls_append]
    rfl
  refine ⟨?_, ?_, ?_⟩
  · have hfold : (pre ++ Output.toolResultEvent x s c :: post).foldl processOutput
        (([] : List (String × ToolCallInfo)), ([] : List String))
        = (pre ++ post).foldl processOutput ([], []) := by
      rw [foldl_processOutput_split, foldl_processOutput_split, hcalls]
      have hnone : mapGet (pre.foldl processOutputMap []) x = none :=
        mapGet_foldl_processOutputMap_none pre [] x rfl h
      have hmaps : (pre ++ Output.toolResultEvent x s c :: post).foldl processOutputMap
          ([] : List (String × ToolCallInfo)) = (pre ++ post).foldl processOutputMap [] := by
        rw [List.foldl_append, List.foldl_append, List.foldl_cons]
        rw [show processOutputMap (pre.foldl processOutputMap [])
            (Output.toolResultEvent x s c) = pre.foldl processOutputMap [] from by
          simp [processOutputMap, hnone]]
      rw [hmaps]
    simp only [getTools, getToolsAux]
    rw [hfold]
  · rw [extractToolCallOrder_char _ _ rfl, extractToolCallOrder_char _ _ rfl, hcalls]
  · rw [extractToolCallFlow_char _ _ rfl, extractToolCallFlow_char _ _ rfl, hcalls]

/-- Witness for C7: a result for the unseen id "x" between two requests is
dropped, the extraction result matching the trace without it. -/
theorem dangling_result_dropped_witness :
    ("x" ∉ (allCalls [Output.toolCallEvent [tc "a" "search"]]).map (fun cl => cl.id))
    ∧ (getTools [⟨some 0, some 1, some (some ([Output.toolCallEvent [tc "a" "search"]]
          ++ Output.toolResultEvent "x" "error" "no match"
            :: [Output.toolCallEvent [tc "b" "read"]]))⟩]
        = getTools [⟨some 0, some 1, some (some ([Output.toolCallEvent [tc "a" "search"]]
            ++ [Output.toolCallEvent [tc "b" "read"]]))⟩]
       ∧ extractToolCallOrder ⟨some 0, some 1,
           some (some ([Output.toolCallEvent [tc "a" "search"]]
             ++ Output.toolResultEvent "x" "error" "no match"
               :: [Output.toolCallEvent [tc "b" "read"]]))⟩
         = extractToolCallOrder ⟨some 0, some 1,
             some (some ([Output.toolCallEvent [tc "a" "search"]]
               ++ [Output.toolCallEvent [tc "b" "read"]]))⟩
       ∧ extractToolCallFlow ⟨some 0, some 1,
           some (some ([Output.toolCallEvent [tc "a" "search"]]
             ++ Output.toolResultEvent "x" "error" "no match"
               :: [Output.toolCallEvent [tc "b" "read"]]))⟩
         = extractToolCallFlow ⟨some 0, some 1,
             some (some ([Output.toolCallEvent [tc "a" "search"]]
               ++ [Output.toolCallEvent [tc "b" "read"]]))⟩) :=
  ⟨by decide,
   dangling_result_dropped [Output.toolCallEvent [tc "a" "search"]]
     [Output.toolCallEvent [tc "b" "read"]] "x" "error" "no match"
     (some 0) (some 1) (by decide)⟩

/-! ## C10: duplicate call ids — last write wins in getTools, first wins in
the graph extractors -/

theorem getLast?_cons_orElse {γ : Type _} (a : γ) (l : List γ) :
    (a :: l).getLast? = (l.getLast?).orElse (fun _ => some a) := by
  cases l with
  | nil => rfl
  | cons b t =>
    rw [List.getLast?_cons_cons]
    cases hbt : (b :: t).getLast? with
    | none =>
      exact absurd (List.getLast?_eq_none_iff.mp hbt) (by simp)
    | some y => rfl

theorem orElse_none_eq {γ : Type _} (o : Option γ) :
    (o.orElse (fun _ => none)) = o := by
  cases o <;> rfl

theorem getLast?_append_orElse {γ : Type _} :
    ∀ (l₁ l₂ : List γ), (l₁ ++ l₂).getLast? = (l₂.getLast?).orElse (fun _ => l₁.getLast?) := by
  intro l₁
  induction l₁ with
  | nil =>
    intro l₂
    rw [List.nil_append]
    exact (orElse_none_eq _).symm
  | cons a t ih =>
    intro l₂
    rw [List.cons_append, getLast?_cons_orElse, ih, getLast?_cons_orElse]
    cases l₂.getLast? <;> cases t.getLast? <;> rfl

theorem mapGet_foldl_setInfo_last :
    ∀ (cs : List ToolCall) (m : List (String × ToolCallInfo)) (x : String),
      (mapGet (cs.foldl (fun m c => mapSet m c.id (mkToolCallInfo c)) m) x).map
          (fun r => (r.name, r.args))
        = (((cs.filter (fun cl => decide (cl.id = x))).getLast?).map
            (fun cl => (cl.name, cl.args))).orElse
            (fun _ => (mapGet m x).map (fun r => (r.name, r.args))) := by
  intro cs
  induction cs with
  | nil => intro m x; rfl
  | cons cl cs ih =>
    intro m x
    rw [List.foldl_cons, ih]
    by_cases hx : cl.id = x
    · have hfil : (cl :: cs).filter (fun d => decide (d.id = x))
          = cl :: cs.filter (fun d => decide (d.id = x)) := by
        simp [List.filter_cons, hx]
      have hget : mapGet (mapSet m cl.id (mkToolCallInfo cl)) x = some (mkToolCallInfo cl) := by
        rw [← hx]
        exact mapGet_mapSet_self m cl.id (mkToolCallInfo cl)
      rw [hfil, getLast?_cons_orElse]
      simp only [hget]
      cases (cs.filter (fun d => decide (d.id = x))).getLast? <;> rfl
    · have hfil : (cl :: cs).filter (fun d => decide (d.id = x))
          = cs.filter (fun d => decide (d.id = x)) := by
        simp [List.filter_cons, hx]
      have hget : mapGet (mapSet m cl.id (mkToolCallInfo cl)) x = mapGet m x :=
        mapGet_mapSet_ne m cl.id x (mkToolCallInfo cl) (fun hc => hx hc)
      rw [hfil]
      simp only [hget]

theorem mapGet_processOutputMap_last :
    ∀ (msgs : List Output) (m : List (String × ToolCallInfo)) (x : String),
      (mapGet (msgs.foldl processOutputMap m) x).map (fun r => (r.name, r.args))
        = ((((allCalls msgs).filter (fun cl => decide (cl.id = x))).getLast?).map
            (fun cl => (cl.name, cl.args))).orElse
            (fun _ => (mapGet m x).map (fun r => (r.name, r.args))) := by
  intro msgs
  induction msgs with
  | nil => intro m x; rfl
  | cons o msgs ih =>
    intro m x
    rw [List.foldl_cons, ih, allCalls_cons, List.filter_append, getLast?_append_orElse]
    cases o with
    | toolCallEvent cs =>
      have hinner := mapGet_foldl_setInfo_last cs m x
      rw [show processOutputMap m (Output.toolCallEvent cs)
          = cs.foldl (fun m c => mapSet m c.id (mkToolCallInfo c)) m from rfl]
      simp only [hinner]
      rw [show outputCalls (Output.toolCallEvent cs) = cs from rfl]
      cases ((allCalls msgs).filter (fun cl => decide (cl.id = x))).getLast? <;>
        cases (cs.filter (fun cl => decide (cl.id = x))).getLast? <;> rfl
    | toolResultEvent cid stat cont =>
      have hpatch : (mapGet (processOutputMap m (Output.toolResultEvent cid stat cont)) x).map
          (fun r => (r.name, r.args)) = (mapGet m x).map (fun r => (r.name, r.args)) := by
        cases hget : mapGet m cid with
        | none => simp [processOutputMap, hget]
        | some info =>
          simp only [processOutputMap, hget]
          by_cases hxc : x = cid
          · subst hxc
            rw [mapGet_mapSet_self, hget]
            rfl
          · rw [mapGet_mapSet_ne _ _ _ _ (fun hc => hxc hc.symm)]
      simp only [hpatch]
      rw [show outputCalls (Output.toolResultEvent cid stat cont) = [] from rfl]
      cases ((allCalls msgs).filter (fun cl => decide (cl.id = x))).getLast? <;> rfl
    | unknown =>
      rw [show processOutputMap m Output.unknown = m from rfl,
        show outputCalls Output.unknown = [] from rfl]
      cases ((allCalls msgs).filter (fun cl => decide (cl.id = x))).getLast? <;> rfl

theorem mapGet_pairs_find? :
    ∀ (l : List ToolCall) (cid : String),
      mapGet (l.map (fun c => (c.id, c.name))) cid
        = (l.find? (fun c => decide (c.id = cid))).map (fun c => c.name) := by
  intro l
  induction l with
  | nil => intro cid; rfl
  | cons c l ih =>
    intro cid
    by_cases hc : c.id = cid
    · simp [mapGet, List.find?, hc]
    · simp [mapGet, List.find?, hc, ih]

theorem find?_filter_ne_id :
    ∀ (l : List ToolCall) (a cid : String), cid ≠ a →
      ((l.filter (fun d => decide (d.id ≠ a))).find? (fun d => decide (d.id = cid)))
        = l.find? (fun d => decide (d.id = cid)) := by
  intro l
  induction l with
  | nil => intro a cid _; rfl
  | cons d l ih =>
    intro a cid hca
    by_cases hda : d.id = a
    · have hdc : decide (d.id = cid) = false :=
        decide_eq_false (fun hh => hca (hh.symm.trans hda))
      rw [show (d :: l).filter (fun d => decide (d.id ≠ a))
          = l.filter (fun d => decide (d.id ≠ a)) from by simp [List.filter_cons, hda]]
      rw [ih a cid hca]
      simp only [List.find?, hdc, cond_false]
    · rw [show (d :: l).filter (fun d => decide (d.id ≠ a))
          = d :: l.filter (fun d => decide (d.id ≠ a)) from by simp [List.filter_cons, hda]]
      by_cases hdc : d.id = cid
      · have hp : decide (d.id = cid) = true := decide_eq_true hdc
        simp only [List.find?, hp, cond_true]
      · have hp : decide (d.id = cid) = false := decide_eq_false hdc
        simp only [List.find?, hp, cond_false]
        exact ih a cid hca

theorem firstCallsById_find? :
    ∀ (l : List ToolCall) (cid : String),
      (firstCallsById l).find? (fun d => decide (d.id = cid))
        = l.find? (fun d => decide (d.id = cid)) := by
  intro l
  induction l using firstCallsById.induct with
  | case1 => intro cid; rw [firstCallsById]
  | case2 c l ih =>
    intro cid
    rw [firstCallsById]
    by_cases hc : c.id = cid
    · have hp : decide (c.id = cid) = true := decide_eq_true hc
      simp only [List.find?, hp, cond_true]
    · have h₁ : cid ≠ c.id := fun hh => hc hh.symm
      have hp : decide (c.id = cid) = false := decide_eq_false hc
      simp only [List.find?, hp, cond_false]
      rw [ih cid, find?_filter_ne_id l c.id cid h₁]

theorem ordNodesSpec_map_idname (calls : List ToolCall) :
    (ordNodesSpec calls).map (fun n => (n.id, n.name))
      = (firstCallsById calls).map (fun c => (c.id, c.name)) := by
  rw [ordNodesSpec, List.map_map]
  exact enum_map_comp_snd (firstCallsById calls) (fun c => (c.id, c.name))

/-- C10: when two requests in one trace share a call id, the per-trace
`toolCalls` map of `getTools` keeps the later request's name and args (its
`Map.set` overwrites), whereas `extractToolCallOrder` keeps the first
occurrence (its insert is guarded by `has`), as does the flow extractor's
call sequence. -/
theorem duplicate_id_policy (t : Trace) (msgs : List Output) (cid : String)
    (h : t.outputs = some (some msgs)) :
    (mapGet (getToolsTraceMap msgs) cid).map (fun r => (r.name, r.args))
      = (((allCalls msgs).filter (fun cl => decide (cl.id = cid))).getLast?).map
          (fun cl => (cl.name, cl.args))
    ∧ mapGet ((extractToolCallOrder t).1.map (fun n => (n.id, n.name))) cid
        = ((allCalls msgs).find? (fun cl => decide (cl.id = cid))).map (fun cl => cl.name)
    ∧ (extractToolCallFlow t).2.2 = (firstCallsById (allCalls msgs)).map (fun cl => cl.name) := by
  refine ⟨?_, ?_, ?_⟩
  · rw [getToolsTraceMap_eq, mapGet_processOutputMap_last]
    cases (((allCalls msgs).filter (fun cl => decide (cl.id = cid))).getLast?) <;> rfl
  · rw [extractToolCallOrder_char t msgs h]
    simp only
    rw [ordNodesSpec_map_idname, mapGet_pairs_find?, firstCallsById_find?]
  · rw [extractToolCallFlow_char t msgs h]
    rfl

/-- Witness for C10 at a trace re-using call id "x": `getTools` keeps the
later request ("gamma") while the order graph keeps the first ("alpha"). -/
theorem duplicate_id_policy_witness :
    (traceDup.outputs = some (some msgsDup))
    ∧ ((mapGet (getToolsTraceMap msgsDup) "x").map (fun r => (r.name, r.args))
         = (((allCalls msgsDup).filter (fun cl => decide (cl.id = "x"))).getLast?).map
             (fun cl => (cl.name, cl.args))
       ∧ mapGet ((extractToolCallOrder traceDup).1.map (fun n => (n.id, n.name))) "x"
           = ((allCalls msgsDup).find? (fun cl => decide (cl.id = "x"))).map
               (fun cl => cl.name)
       ∧ (extractToolCallFlow traceDup).2.2
           = (firstCallsById (allCalls msgsDup)).map (fun cl => cl.name))
    ∧ (mapGet (getToolsTraceMap msgsDup) "x").map (fun r => r.name) = some "gamma"
    ∧ mapGet ((extractToolCallOrder traceDup).1.map (fun n => (n.id, n.name))) "x"
        = some "alpha" :=
  ⟨rfl, duplicate_id_policy traceDup msgsDup "x" rfl, by decide, by decide⟩

/-! ## C4: glyph system -/

theorem mapGet_perm {β : Type _} {ts₁ ts₂ : List (String × β)} (hp : ts₁.Perm ts₂)
    (hnd : (ts₁.map Prod.fst).Nodup) (k : String) : mapGet ts₁ k = mapGet ts₂ k := by
  induction hp with
  | nil => rfl
  | cons x p ih =>
    simp only [List.map_cons, List.nodup_cons] at hnd
    obtain ⟨x₁, x₂⟩ := x
    by_cases hk : x₁ = k
    · simp [mapGet, hk]
    · simp only [mapGet, if_neg hk]
      exact ih hnd.2
  | swap x y l =>
    obtain ⟨x₁, x₂⟩ := x
    obtain ⟨y₁, y₂⟩ := y
    simp only [List.map_cons, List.nodup_cons, List.mem_cons] at hnd
    push_neg at hnd
    have hxy : y₁ ≠ x₁ := hnd.1.1
    by_cases hk1 : y₁ = k <;> by_cases hk2 : x₁ = k
    · exact absurd (hk1.trans hk2.symm) hxy
    · simp [mapGet, hk1, hk2]
    · simp [mapGet, hk1, hk2]
    · simp [mapGet, hk1, hk2]
  | trans p₁ p₂ ih₁ ih₂ =>
    have hnd₂ := ((p₁.map Prod.fst).nodup_iff).mp hnd
    rw [ih₁ hnd, ih₂ hnd₂]

theorem sortedGroups_perm (ts₁ ts₂ : Taxonomy) (hp : ts₁.Perm ts₂) :
    sortedGroups ts₁ = sortedGroups ts₂ := by
  have h₁ : List.Sorted (fun a b : String => a.data ≤ b.data) (sortedGroups ts₁) :=
    List.sorted_insertionSort _ _
  have h₂ : List.Sorted (fun a b : String => a.data ≤ b.data) (sortedGroups ts₂) :=
    List.sorted_insertionSort _ _
  have hp' : (sortedGroups ts₁).Perm (sortedGroups ts₂) :=
    (List.perm_insertionSort _ _).trans ((hp.map Prod.fst).trans
      (List.perm_insertionSort _ _).symm)
  exact List.eq_of_perm_of_sorted hp' h₁ h₂

theorem createGlyphSystem_perm (ts₁ ts₂ : Taxonomy) (hp : ts₁.Perm ts₂)
    (hnd : (ts₁.map Prod.fst).Nodup) :
    createGlyphSystem ts₁ = createGlyphSystem ts₂ := by
  have hget : ∀ g, mapGet ts₁ g = mapGet ts₂ g := mapGet_perm hp hnd
  simp only [createGlyphSystem, sortedGroups_perm ts₁ ts₂ hp]
  congr 1
  exact foldl_congr_fn (fun m g => by rw [hget g]) _ _

theorem mapGet_foldl_glyph_notin :
    ∀ (gs : List String) (k : Nat) (m : List (String × String)) (x : String),
      x ∉ gs →
      mapGet ((gs.enumFrom k).foldl
        (fun m p => mapSet m p.2 (availableGlyphs.getD (p.1 % availableGlyphs.length) "circle"))
        m) x = mapGet m x := by
  intro gs
  induction gs with
  | nil => intro k m x _; rfl
  | cons g gs ih =>
    intro k m x hx
    simp only [List.mem_cons] at hx
    push_neg at hx
    simp only [List.enumFrom, List.foldl_cons]
    rw [ih (k + 1) _ x hx.2, mapGet_mapSet_ne _ _ _ _ (fun hc => hx.1 hc.symm)]

theorem groupGlyph_lookup :
    ∀ (gs : List String) (k : Nat) (m₀ : List (String × String)) (i : Nat) (hi : i < gs.length),
      gs.Nodup →
      mapGet ((gs.enumFrom k).foldl
          (fun m p => mapSet m p.2 (availableGlyphs.getD (p.1 % availableGlyphs.length) "circle"))
          m₀)
        (gs.get ⟨i, hi⟩)
        = some (availableGlyphs.getD ((k + i) % availableGlyphs.length) "circle") := by
  intro gs
  induction gs with
  | nil => intro k m₀ i hi _; exact absurd hi (by simp)
  | cons g gs ih =>
    intro k m₀ i hi hnd
    simp only [List.nodup_cons] at hnd
    simp only [List.enumFrom, List.foldl_cons]
    cases i with
    | zero =>
      rw [show (g :: gs).get ⟨0, hi⟩ = g from rfl]
      rw [mapGet_foldl_glyph_notin gs (k + 1) _ g hnd.1, mapGet_mapSet_self]
      rw [Nat.add_zero]
    | succ j =>
      have hj : j < gs.length := by
        simpa using Nat.lt_of_succ_lt_succ hi
      rw [show (g :: gs).get ⟨j + 1, hi⟩ = gs.get ⟨j, hj⟩ from rfl]
      rw [ih (k + 1) _ j hj hnd.2]
      have harith : k + 1 + j = k + (j + 1) := by omega
      rw [harith]

theorem mapGet_foldl_setGroup_notin :
    ∀ (cs : List String) (m : List (String × String)) (g x : String),
      x ∉ cs → mapGet m x = none →
      mapGet (cs.foldl (fun m t => mapSet m t g) m) x = none := by
  intro cs
  induction cs with
  | nil => intro m g x _ h; exact h
  | cons t cs ih =>
    intro m g x hx h
    simp only [List.mem_cons] at hx
    push_neg at hx
    rw [List.foldl_cons]
    exact ih _ g x hx.2 (by rw [mapGet_mapSet_ne _ _ _ _ (fun hc => hx.1 hc.symm)]; exact h)

theorem toolToGroup_lookup_none :
    ∀ (gs : List String) (ts : Taxonomy) (m : List (String × String)) (tool : String),
      (∀ p ∈ ts, tool ∉ p.2) → mapGet m tool = none →
      mapGet (gs.foldl
        (fun m groupName => ((mapGet ts groupName).getD []).foldl
          (fun m toolName => mapSet m toolName groupName) m)
        m) tool = none := by
  intro gs
  induction gs with
  | nil => intro ts m tool _ h; exact h
  | cons g gs ih =>
    intro ts m tool hts h
    rw [List.foldl_cons]
    refine ih ts _ tool hts ?_
    refine mapGet_foldl_setGroup_notin _ m g tool ?_ h
    cases hg : mapGet ts g with
    | none => simp
    | some l =>
      simp only [Option.getD_some]
      exact hts (g, l) (mapGet_mem ts g l hg)

/-- C4: the glyph system is deterministic — two taxonomies holding the same
group/tool-list pairs (in any insertion order, keys unique) yield identical
glyph systems, group names are sorted lexicographically and the group at
sorted rank i receives palette glyph i mod 9, and a tool absent from every
group resolves to glyph "circle" and group "unknown" without failing. -/
theorem createGlyphSystem_spec (ts₁ ts₂ : Taxonomy)
    (hperm : ts₁.Perm ts₂) (hnd : (ts₁.map Prod.fst).Nodup) :
    createGlyphSystem ts₁ = createGlyphSystem ts₂
    ∧ (∀ i, i < (sortedGroups ts₁).length →
        (createGlyphSystem ts₁).getGroupGlyph ((sortedGroups ts₁).getD i "")
          = availableGlyphs.getD (i % availableGlyphs.length) "circle")
    ∧ (∀ tool, (∀ p ∈ ts₁, tool ∉ p.2) →
        (createGlyphSystem ts₁).getGlyph tool = "circle"
        ∧ (createGlyphSystem ts₁).getGroup tool = "unknown") := by
  refine ⟨createGlyphSystem_perm ts₁ ts₂ hperm hnd, ?_, ?_⟩
  · intro i hi
    have hndsort : (sortedGroups ts₁).Nodup := by
      rw [sortedGroups]
      exact ((List.perm_insertionSort (fun a b : String => a.data ≤ b.data)
        (ts₁.map Prod.fst)).nodup_iff).mpr hnd
    have hgetD : (sortedGroups ts₁).getD i "" = (sortedGroups ts₁).get ⟨i, hi⟩ := by
      rw [List.getD_eq_getElem?_getD, List.getElem?_eq_getElem hi]
      rfl
    rw [hgetD]
    have hlook := groupGlyph_lookup (sortedGroups ts₁) 0 [] i hi hndsort
    have hrfl : (createGlyphSystem ts₁).getGroupGlyph ((sortedGroups ts₁).get ⟨i, hi⟩)
        = (mapGet (((sortedGroups ts₁).enumFrom 0).foldl
            (fun m p => mapSet m p.2
              (availableGlyphs.getD (p.1 % availableGlyphs.length) "circle")) [])
            ((sortedGroups ts₁).get ⟨i, hi⟩)).getD "circle" := rfl
    rw [hrfl, hlook]
    simp
  · intro tool htool
    have hnone : mapGet (createGlyphSystem ts₁).toolToGroup tool = none := by
      rw [show (createGlyphSystem ts₁).toolToGroup
          = (sortedGroups ts₁).foldl
            (fun m groupName => ((mapGet ts₁ groupName).getD []).foldl
              (fun m toolName => mapSet m toolName groupName) m) [] from rfl]
      exact toolToGroup_lookup_none (sortedGroups ts₁) ts₁ [] tool htool rfl
    constructor
    · rw [GlyphSystem.getGlyph, hnone]
    · rw [GlyphSystem.getGroup, hnone]
      rfl

/-- Witness for C4 at two insertion orders of the same two-group taxonomy:
the hypotheses hold, and concretely "z" (group "alpha", rank 0) draws
"circle", "x" (group "beta", rank 1) draws "cross", and the unknown tool "q"
resolves to "circle"/"unknown". -/
theorem createGlyphSystem_spec_witness :
    (tax1.Perm tax2 ∧ (tax1.map Prod.fst).Nodup)
    ∧ (createGlyphSystem tax1 = createGlyphSystem tax2
       ∧ (∀ i, i < (sortedGroups tax1).length →
           (createGlyphSystem tax1).getGroupGlyph ((sortedGroups tax1).getD i "")
             = availableGlyphs.getD (i % availableGlyphs.length) "circle")
       ∧ (∀ tool, (∀ p ∈ tax1, tool ∉ p.2) →
           (createGlyphSystem tax1).getGlyph tool = "circle"
           ∧ (createGlyphSystem tax1).getGroup tool = "unknown"))
    ∧ (createGlyphSystem tax1).getGlyph "z" = "circle"
    ∧ (createGlyphSystem tax1).getGlyph "x" = "cross"
    ∧ (createGlyphSystem tax1).getGroup "q" = "unknown" :=
  ⟨⟨by decide, by decide⟩,
   createGlyphSystem_spec tax1 tax2 (by decide) (by decide),
   by decide, by decide, by decide⟩

end AgentProfiler
